import Mathlib

/-!
# vger tile command buffer (`Sources/vger/commands.h`)

A shallow embedding of the `Tile` command buffer and of its five write
operations, together with the sequential decoder that the specification
describes for the consumer.

Memory model.  `Tile.commands` is the byte-addressed memory that starts at
`commands[0]`: offsets `0 .. tileBufSize - 1` are the array itself, offsets from
`tileBufSize` on are the memory that follows the array.  The code writes through
`commands + length` without a bound check, so a write lands wherever that
address points; the model records it at that offset.

Values.  A `float` is its 32-bit pattern, an `int` a signed 32-bit integer, a
`vgerOp` a 4-byte enumerator, a `float2` two floats (8 bytes, aligned to 8).
Words are stored little-endian.  The padding bytes of a struct have no value
fixed by the language: every write operation takes them as the argument `pad`
(`pad i` is the byte at struct offset `i`), and the theorems hold for every
`pad`.  Alignment is not tracked: a store at an offset that is no multiple of
the alignment of its type is a store like any other.
-/

namespace Vger

/-! ## Machine values -/

/-- One byte of memory. -/
abbrev Byte := Fin 256

/-- One 32-bit word: the bit pattern of a `float`, of an `int` or of a `vgerOp`. -/
abbrev Word := Fin 4294967296

/-- The C type `float`, as its bit pattern. -/
abbrev float := Word

/-- The C type `int`: a signed 32-bit integer. -/
def CInt := { v : Int // -2147483648 ≤ v ∧ v < 2147483648 }

instance : DecidableEq CInt := by
  unfold CInt
  infer_instance

/-- The two's-complement bit pattern of an `int`. -/
def CInt.toWord (c : CInt) : Word :=
  ⟨(c.val % 4294967296).toNat, by
    have h := c.property
    omega⟩

/-- The `int` that a bit pattern stands for. -/
def CInt.ofWord (w : Word) : CInt :=
  if h : w.val < 2147483648 then
    ⟨(w.val : Int), by omega⟩
  else
    ⟨(w.val : Int) - 4294967296, by
      have hw := w.isLt
      omega⟩

/-- The `int` with value `n`, for `n` in range (out of range: 0). -/
def CInt.ofInt (n : Int) : CInt :=
  if h : -2147483648 ≤ n ∧ n < 2147483648 then ⟨n, h⟩ else ⟨0, by omega⟩

/-- The simd type `float2`: two floats, `x` at the lower address. -/
structure float2 where
  x : float
  y : float
deriving DecidableEq, Repr

/-- The capacity of a tile's command buffer (`#define tileBufSize 64`). -/
def tileBufSize : Nat := 64

/-- The enumeration `vgerOp`. -/
inductive vgerOp where
  | vgerOpEnd
  | vgerOpLine
  | vgerOpBez
  | vgerOpSolid
  | vgerOpSegment
deriving DecidableEq, Repr

/-- The value of an enumerator: they count up from 0 in declaration order. -/
def vgerOp.toWord : vgerOp → Word
  | .vgerOpEnd => 0
  | .vgerOpLine => 1
  | .vgerOpBez => 2
  | .vgerOpSolid => 3
  | .vgerOpSegment => 4

/-- Line segment (`struct vgerCmdSegment`). -/
structure vgerCmdSegment where
  op : vgerOp
  a : float2
  b : float2
  width : float
deriving DecidableEq, Repr

/-- Flip the sign of the df if ray intersects with line (`struct vgerCmdLineFill`). -/
structure vgerCmdLineFill where
  op : vgerOp
  a : float2
  b : float2
deriving DecidableEq, Repr

/-- Flip the sign of the df if point is inside the bezier (`struct vgerCmdBezFill`). -/
structure vgerCmdBezFill where
  op : vgerOp
  a : float2
  b : float2
  c : float2
deriving DecidableEq, Repr

/-- Set the color (`struct vgerCmdSolid`). -/
structure vgerCmdSolid where
  op : vgerOp
  color : CInt

/-! ## Object representations -/

/-- The four bytes of a word, least significant first. -/
def wordBytes (w : Word) : List Byte :=
  [⟨w.val % 256, by omega⟩,
   ⟨w.val / 256 % 256, by omega⟩,
   ⟨w.val / 65536 % 256, by omega⟩,
   ⟨w.val / 16777216 % 256, by omega⟩]

/-- The eight bytes of a `float2`. -/
def float2.bytes (v : float2) : List Byte :=
  wordBytes v.x ++ wordBytes v.y

/-- Four padding bytes, at struct offsets `i .. i + 3`. -/
def padBytes (pad : Nat → Byte) (i : Nat) : List Byte :=
  [pad i, pad (i + 1), pad (i + 2), pad (i + 3)]

/-- `sizeof(vgerOp)`. -/
def sizeof_vgerOp : Nat := 4

/-- `sizeof(vgerCmdSegment)`: op 0..3, padding 4..7, a 8..15, b 16..23,
width 24..27, padding 28..31. -/
def sizeof_vgerCmdSegment : Nat := 32

/-- `sizeof(vgerCmdLineFill)`: op 0..3, padding 4..7, a 8..15, b 16..23. -/
def sizeof_vgerCmdLineFill : Nat := 24

/-- `sizeof(vgerCmdBezFill)`: op 0..3, padding 4..7, a 8..15, b 16..23, c 24..31. -/
def sizeof_vgerCmdBezFill : Nat := 32

/-- `sizeof(vgerCmdSolid)`: op 0..3, color 4..7. -/
def sizeof_vgerCmdSolid : Nat := 8

/-- The object representation of a bare `vgerOp`. -/
def vgerOp.bytes (op : vgerOp) : List Byte :=
  wordBytes op.toWord

/-- The object representation of a `vgerCmdSegment`. -/
def vgerCmdSegment.bytes (c : vgerCmdSegment) (pad : Nat → Byte) : List Byte :=
  wordBytes c.op.toWord ++ padBytes pad 4 ++ c.a.bytes ++ c.b.bytes
    ++ wordBytes c.width ++ padBytes pad 28

/-- The object representation of a `vgerCmdLineFill`. -/
def vgerCmdLineFill.bytes (c : vgerCmdLineFill) (pad : Nat → Byte) : List Byte :=
  wordBytes c.op.toWord ++ padBytes pad 4 ++ c.a.bytes ++ c.b.bytes

/-- The object representation of a `vgerCmdBezFill`. -/
def vgerCmdBezFill.bytes (c : vgerCmdBezFill) (pad : Nat → Byte) : List Byte :=
  wordBytes c.op.toWord ++ padBytes pad 4 ++ c.a.bytes ++ c.b.bytes ++ c.c.bytes

/-- The object representation of a `vgerCmdSolid` (it has no padding). -/
def vgerCmdSolid.bytes (c : vgerCmdSolid) : List Byte :=
  wordBytes c.op.toWord ++ wordBytes c.color.toWord

/-! ## The tile -/

/-- The struct `Tile`: the cursor `length` (a `uint`) and the memory at
`commands`. -/
structure Tile where
  length : Nat
  commands : Nat → Byte

/-- `Tile::append<T>`: store the `size = sizeof(T)` bytes `rep` of `cmd` at
`commands + length`, then `length += sizeof(T)` in `uint` arithmetic. -/
def Tile.append (t : Tile) (size : Nat) (rep : List Byte) : Tile :=
  { length := (t.length + size) % 4294967296
    commands := fun i =>
      if t.length ≤ i ∧ i < t.length + size then rep.getD (i - t.length) 0
      else t.commands i }

/-- `Tile::segment`. -/
def Tile.segment (t : Tile) (a b : float2) (width : float) (pad : Nat → Byte) : Tile :=
  t.append sizeof_vgerCmdSegment (vgerCmdSegment.bytes ⟨.vgerOpSegment, a, b, width⟩ pad)

/-- `Tile::lineFill`. -/
def Tile.lineFill (t : Tile) (a b : float2) (pad : Nat → Byte) : Tile :=
  t.append sizeof_vgerCmdLineFill (vgerCmdLineFill.bytes ⟨.vgerOpLine, a, b⟩ pad)

/-- `Tile::bezFill`. -/
def Tile.bezFill (t : Tile) (a b c : float2) (pad : Nat → Byte) : Tile :=
  t.append sizeof_vgerCmdBezFill (vgerCmdBezFill.bytes ⟨.vgerOpBez, a, b, c⟩ pad)

/-- `Tile::solid`. -/
def Tile.solid (t : Tile) (color : CInt) : Tile :=
  t.append sizeof_vgerCmdSolid (vgerCmdSolid.bytes ⟨.vgerOpSolid, color⟩)

/-- `Tile::end` (`end` is a keyword of Lean, hence the underscore). -/
def Tile.end_ (t : Tile) : Tile :=
  t.append sizeof_vgerOp vgerOp.vgerOpEnd.bytes

/-! ## Commands and call sequences -/

/-- The five kinds of command that a tile holds, each with the fields of its
struct: `End` is the bare `vgerOpEnd` that `end()` writes, the others are
`vgerCmdSegment`, `vgerCmdLineFill`, `vgerCmdBezFill` and `vgerCmdSolid` with
the discriminator that their write operation fixes. -/
inductive Command where
  | End
  | Segment (a b : float2) (width : float)
  | LineFill (a b : float2)
  | BezFill (a b c : float2)
  | Solid (color : CInt)
deriving DecidableEq

/-- The discriminator of a command. -/
def Command.op : Command → vgerOp
  | .End => .vgerOpEnd
  | .Segment _ _ _ => .vgerOpSegment
  | .LineFill _ _ => .vgerOpLine
  | .BezFill _ _ _ => .vgerOpBez
  | .Solid _ => .vgerOpSolid

/-- The number of bytes that the write operation for a discriminator stores:
the `sizeof` of the type that the operation passes to `append`. -/
def vgerOp.size : vgerOp → Nat
  | .vgerOpEnd => sizeof_vgerOp
  | .vgerOpLine => sizeof_vgerCmdLineFill
  | .vgerOpBez => sizeof_vgerCmdBezFill
  | .vgerOpSolid => sizeof_vgerCmdSolid
  | .vgerOpSegment => sizeof_vgerCmdSegment

/-- The encoded size of a command. -/
def Command.size (c : Command) : Nat :=
  c.op.size

/-- The matching write operation of a command: `segment`, `lineFill`, `bezFill`,
`solid` or `end`. -/
def Tile.exec (t : Tile) (c : Command) (pad : Nat → Byte) : Tile :=
  match c with
  | .End => t.end_
  | .Segment a b width => t.segment a b width pad
  | .LineFill a b => t.lineFill a b pad
  | .BezFill a b c => t.bezFill a b c pad
  | .Solid color => t.solid color

/-- One call of a write operation: the command and the padding bytes that the
call stores with it. -/
abbrev Call := Command × (Nat → Byte)

/-- A sequence of calls, in order. -/
def Tile.run (t : Tile) : List Call → Tile
  | [] => t
  | k :: ks => (t.exec k.1 k.2).run ks

/-- The cumulative encoded size of a sequence of calls. -/
def totalSize : List Call → Nat
  | [] => 0
  | k :: ks => k.1.size + totalSize ks

/-- An empty tile: the cursor is 0, the memory holds whatever it holds. -/
def Tile.empty (m : Nat → Byte) : Tile :=
  { length := 0, commands := m }

/-! ## Decoding -/

/-- The 32-bit word at an offset, little-endian. -/
def readWord (m : Nat → Byte) (off : Nat) : Word :=
  ⟨(m off).val + 256 * (m (off + 1)).val + 65536 * (m (off + 2)).val
      + 16777216 * (m (off + 3)).val, by omega⟩

/-- The `float2` at an offset. -/
def readFloat2 (m : Nat → Byte) (off : Nat) : float2 :=
  ⟨readWord m off, readWord m (off + 4)⟩

/-- Modelled from the spec: the error taxonomy of section 7, as far as decoding
raises it. -/
inductive DecodeError where
  | UnterminatedBuffer
  | UnknownDiscriminator
deriving DecidableEq, Repr

/-- Modelled from the spec: the discriminator-to-shape mapping of the decoder
(the source has no decoder).  A word outside the five enumerators selects no
shape. -/
def vgerOp.ofWord (w : Word) : Option vgerOp :=
  if w.val = 0 then some .vgerOpEnd
  else if w.val = 1 then some .vgerOpLine
  else if w.val = 2 then some .vgerOpBez
  else if w.val = 3 then some .vgerOpSolid
  else if w.val = 4 then some .vgerOpSegment
  else none

/-- Modelled from the spec: the payload read that a discriminator selects, at
the field offsets of the struct that the source declares for it. -/
def readPayload (m : Nat → Byte) (off : Nat) : vgerOp → Command
  | .vgerOpEnd => .End
  | .vgerOpLine => .LineFill (readFloat2 m (off + 8)) (readFloat2 m (off + 16))
  | .vgerOpBez =>
      .BezFill (readFloat2 m (off + 8)) (readFloat2 m (off + 16)) (readFloat2 m (off + 24))
  | .vgerOpSolid => .Solid (CInt.ofWord (readWord m (off + 4)))
  | .vgerOpSegment =>
      .Segment (readFloat2 m (off + 8)) (readFloat2 m (off + 16)) (readWord m (off + 24))

/-- Modelled from the spec: one step of `decode` (the source has no decoder).
Read the discriminator word at the cursor, read the payload shape that it
selects, and advance the cursor by that shape's length.  A read that does not
fit below the capacity `cap` is `UnterminatedBuffer`. -/
def decodeOne (cap : Nat) (m : Nat → Byte) (off : Nat) : Except DecodeError (Command × Nat) :=
  if off + sizeof_vgerOp ≤ cap then
    match vgerOp.ofWord (readWord m off) with
    | none => .error .UnknownDiscriminator
    | some op =>
        if off + op.size ≤ cap then .ok (readPayload m off op, off + op.size)
        else .error .UnterminatedBuffer
  else .error .UnterminatedBuffer

/-- Modelled from the spec: `decode` from a cursor (the source has no decoder).
Yield commands until an `End` is read, inclusive; the result is the commands
and the offset just after the `End`.  Every step advances the cursor by at
least 4, so `fuel` steps with `fuel` the capacity are never used up. -/
def decodeFrom (cap : Nat) (m : Nat → Byte) : Nat → Nat → Except DecodeError (List Command × Nat)
  | 0, _ => .error .UnterminatedBuffer
  | fuel + 1, off =>
      match decodeOne cap m off with
      | .error e => .error e
      | .ok (.End, next) => .ok ([.End], next)
      | .ok (c, next) =>
          match decodeFrom cap m fuel next with
          | .error e => .error e
          | .ok (cs, stop) => .ok (c :: cs, stop)

/-- Modelled from the spec: `decode()` of a tile, from offset 0, within the
capacity `tileBufSize`. -/
def Tile.decode (t : Tile) : Except DecodeError (List Command × Nat) :=
  decodeFrom tileBufSize t.commands tileBufSize 0

/-- The commands that lie one after the other in `[off, stop)`, whether or not
an `End` is among them: the decoder's step, repeated until the cursor is at
`stop`. -/
def scanFrom (cap : Nat) (m : Nat → Byte) (stop : Nat) : Nat → Nat → Except DecodeError (List Command)
  | 0, _ => .error .UnterminatedBuffer
  | fuel + 1, off =>
      if off = stop then .ok []
      else
        match decodeOne cap m off with
        | .error e => .error e
        | .ok (c, next) =>
            match scanFrom cap m stop fuel next with
            | .error e => .error e
            | .ok cs => .ok (c :: cs)

/-- The encoded command sequence of a tile: the commands in `[0, length)`. -/
def Tile.scan (t : Tile) : Except DecodeError (List Command) :=
  scanFrom tileBufSize t.commands t.length (tileBufSize + 1) 0

instance instDecidableEqExcept {ε α : Type} [DecidableEq ε] [DecidableEq α] :
    DecidableEq (Except ε α)
  | .ok a, .ok b => if h : a = b then isTrue (by rw [h]) else isFalse (fun e => h (by cases e; rfl))
  | .error a, .error b =>
      if h : a = b then isTrue (by rw [h]) else isFalse (fun e => h (by cases e; rfl))
  | .ok _, .error _ => isFalse (fun e => by cases e)
  | .error _, .ok _ => isFalse (fun e => by cases e)

/-- The memory of the examples: all bytes 0. -/
def zeroMem : Nat → Byte := fun _ => 0

/-- The padding of the examples: all bytes 0. -/
def zeroPad : Nat → Byte := fun _ => 0

/-- The bit pattern of the `float` 0.0. -/
def f0 : float := 0

/-- The bit pattern of the `float` 10.0 (`0x41200000`). -/
def f10 : float := 1092616192

/-- The bit pattern of the `float` 1.0 (`0x3f800000`). -/
def f1 : float := 1065353216

/-- The `int` 7. -/
def seven : CInt := CInt.ofInt 7

/-- The object representation that the matching write operation of a command
passes to `append`. -/
def Command.bytes (c : Command) (pad : Nat → Byte) : List Byte :=
  match c with
  | .End => vgerOp.vgerOpEnd.bytes
  | .Segment a b width => vgerCmdSegment.bytes ⟨.vgerOpSegment, a, b, width⟩ pad
  | .LineFill a b => vgerCmdLineFill.bytes ⟨.vgerOpLine, a, b⟩ pad
  | .BezFill a b c => vgerCmdBezFill.bytes ⟨.vgerOpBez, a, b, c⟩ pad
  | .Solid color => vgerCmdSolid.bytes ⟨.vgerOpSolid, color⟩

/-- The bytes of a list of words, in order. -/
def wordsBytes : List Word → List Byte
  | [] => []
  | w :: ws => wordBytes w ++ wordsBytes ws

/-- The field words of a command, in the declared order of its struct. -/
def Command.fields : Command → List Word
  | .End => []
  | .Segment a b width => [a.x, a.y, b.x, b.y, width]
  | .LineFill a b => [a.x, a.y, b.x, b.y]
  | .BezFill a b c => [a.x, a.y, b.x, b.y, c.x, c.y]
  | .Solid color => [color.toWord]

/-- The padding bytes of a command's struct: those between the discriminator and
the first field, and those after the last field. -/
def Command.padding : Command → (Nat → Byte) → List Byte × List Byte
  | .End, _ => ([], [])
  | .Segment _ _ _, pad => (padBytes pad 4, padBytes pad 28)
  | .LineFill _ _, pad => (padBytes pad 4, [])
  | .BezFill _ _ _, pad => (padBytes pad 4, [])
  | .Solid _, _ => ([], [])

/-- The four `lineFill` commands of the square `(0,0) (10,0) (10,10) (0,10)`. -/
def squareEdges : List Command :=
  [.LineFill ⟨f0, f0⟩ ⟨f10, f0⟩, .LineFill ⟨f10, f0⟩ ⟨f10, f10⟩,
   .LineFill ⟨f10, f10⟩ ⟨f0, f10⟩, .LineFill ⟨f0, f10⟩ ⟨f0, f0⟩]

/-- The calls of the end-to-end scenario, without the closing `end()`, each with
the padding `pad`. -/
def squareCalls (pad : Nat → Byte) : List Call :=
  (Command.Solid seven :: squareEdges).map (fun c => (c, pad))

/-- The end-to-end scenario: `solid(7)`, the four `lineFill` calls, `end()`. -/
def squareTile (m pad : Nat → Byte) : Tile :=
  ((Tile.empty m).run (squareCalls pad)).end_

/-- A tile filled to the brim by two `segment` calls. -/
def fullTile : Tile :=
  ((Tile.empty zeroMem).segment ⟨f0, f0⟩ ⟨f10, f0⟩ f1 zeroPad).segment ⟨f10, f0⟩ ⟨f10, f10⟩ f1 zeroPad

/-- The cursor after each call of a sequence, from the tile `t`. -/
def cursors (t : Tile) : List Call → List Nat
  | [] => []
  | k :: ks => (t.exec k.1 k.2).length :: cursors (t.exec k.1 k.2) ks

/-- The command `c` is stored at `off`: its discriminator word and its field
words lie at the offsets of the struct layout. -/
def Stored (m : Nat → Byte) (off : Nat) : Command → Prop
  | .End => readWord m off = vgerOp.vgerOpEnd.toWord
  | .Segment a b width =>
      readWord m off = vgerOp.vgerOpSegment.toWord ∧ readFloat2 m (off + 8) = a
        ∧ readFloat2 m (off + 16) = b ∧ readWord m (off + 24) = width
  | .LineFill a b =>
      readWord m off = vgerOp.vgerOpLine.toWord ∧ readFloat2 m (off + 8) = a
        ∧ readFloat2 m (off + 16) = b
  | .BezFill a b c =>
      readWord m off = vgerOp.vgerOpBez.toWord ∧ readFloat2 m (off + 8) = a
        ∧ readFloat2 m (off + 16) = b ∧ readFloat2 m (off + 24) = c
  | .Solid color =>
      readWord m off = vgerOp.vgerOpSolid.toWord ∧ readWord m (off + 4) = color.toWord

/-- The commands of `ks` are stored one after the other from `off` on. -/
def StoredSeq (m : Nat → Byte) : Nat → List Call → Prop
  | _, [] => True
  | off, k :: ks => Stored m off k.1 ∧ StoredSeq m (off + k.1.size) ks

/-- Following the spec's words, the byte layout of a command: "a discriminator
value, followed by scalar/point fields in fixed declared order", with the
padding of the struct around the fields. -/
def Command.specBytes (c : Command) (pad : Nat → Byte) : List Byte :=
  wordBytes c.op.toWord ++ (c.padding pad).1 ++ wordsBytes c.fields ++ (c.padding pad).2

/-- Following the spec's words, `append(command)`: it "writes the command's
discriminator and payload at the current cursor, advances the cursor by the
command's exact byte length".  To be compared with the five write operations
of the source. -/
def Tile.specAppend (t : Tile) (c : Command) (pad : Nat → Byte) : Tile :=
  { length := (t.length + c.size) % 4294967296
    commands := fun i =>
      if t.length ≤ i ∧ i < t.length + c.size then (c.specBytes pad).getD (i - t.length) 0
      else t.commands i }

/-- The byte at struct offset `j` of a command with discriminator `op` is a
byte of the discriminator or of a field, not padding. -/
def isDataByte : vgerOp → Nat → Prop
  | .vgerOpEnd, j => j < 4
  | .vgerOpLine, j => j < 4 ∨ (8 ≤ j ∧ j < 24)
  | .vgerOpBez, j => j < 4 ∨ (8 ≤ j ∧ j < 32)
  | .vgerOpSolid, j => j < 8
  | .vgerOpSegment, j => j < 4 ∨ (8 ≤ j ∧ j < 28)

/-- The byte at offset `i` is a discriminator or field byte of the sequence of
commands `ks` encoded from `off` on. -/
def isData : List Call → Nat → Nat → Prop
  | [], _, _ => False
  | k :: ks, off, i => (off ≤ i ∧ isDataByte k.1.op (i - off)) ∨ isData ks (off + k.1.size) i

instance instDecidableIsDataByte (op : vgerOp) (j : Nat) : Decidable (isDataByte op j) :=
  match op with
  | .vgerOpEnd => inferInstanceAs (Decidable (j < 4))
  | .vgerOpLine => inferInstanceAs (Decidable (j < 4 ∨ (8 ≤ j ∧ j < 24)))
  | .vgerOpBez => inferInstanceAs (Decidable (j < 4 ∨ (8 ≤ j ∧ j < 32)))
  | .vgerOpSolid => inferInstanceAs (Decidable (j < 8))
  | .vgerOpSegment => inferInstanceAs (Decidable (j < 4 ∨ (8 ≤ j ∧ j < 28)))

instance instDecidableIsData : (ks : List Call) → (off i : Nat) → Decidable (isData ks off i)
  | [], _, _ => isFalse (fun h => h)
  | k :: ks, off, i =>
      have := instDecidableIsData ks (off + k.1.size) i
      inferInstanceAs
        (Decidable ((off ≤ i ∧ isDataByte k.1.op (i - off)) ∨ isData ks (off + k.1.size) i))

/-- A memory of the examples: all bytes 255. -/
def onesMem : Nat → Byte := fun _ => 255

/-- A padding of the examples: all bytes 255. -/
def onesPad : Nat → Byte := fun _ => 255

/-- The number of calls of a sequence whose discriminator satisfies `p`. -/
def countOps (p : vgerOp → Bool) : List Call → Nat
  | [] => 0
  | k :: ks => (if p k.1.op then 1 else 0) + countOps p ks

/-- The discriminator is that of a `LineFill`. -/
def isLine : vgerOp → Bool
  | .vgerOpLine => true
  | _ => false

/-- The discriminator is that of a `Segment` or of a `BezFill`. -/
def isSegmentOrBez : vgerOp → Bool
  | .vgerOpSegment => true
  | .vgerOpBez => true
  | _ => false

/-! ## Lemmas: words and bytes -/

theorem cint_ofWord_toWord (c : CInt) : CInt.ofWord (CInt.toWord c) = c := by
  obtain ⟨v, hv⟩ := c
  unfold CInt.ofWord CInt.toWord
  simp only
  split
  · apply Subtype.ext
    simp only
    omega
  · apply Subtype.ext
    simp only
    omega

theorem readWord_of_bytes (m : Nat → Byte) (off : Nat) (w : Word)
    (h0 : m off = (wordBytes w).getD 0 0) (h1 : m (off + 1) = (wordBytes w).getD 1 0)
    (h2 : m (off + 2) = (wordBytes w).getD 2 0) (h3 : m (off + 3) = (wordBytes w).getD 3 0) :
    readWord m off = w := by
  apply Fin.ext
  simp only [readWord, h0, h1, h2, h3, wordBytes, List.getD_cons_zero, List.getD_cons_succ]
  have := w.isLt
  omega

theorem readWord_congr (m m' : Nat → Byte) (off : Nat)
    (h : ∀ i, off ≤ i → i < off + 4 → m' i = m i) : readWord m' off = readWord m off := by
  apply Fin.ext
  simp only [readWord]
  rw [h off (by omega) (by omega), h (off + 1) (by omega) (by omega),
    h (off + 2) (by omega) (by omega), h (off + 3) (by omega) (by omega)]

theorem readFloat2_congr (m m' : Nat → Byte) (off : Nat)
    (h : ∀ i, off ≤ i → i < off + 8 → m' i = m i) : readFloat2 m' off = readFloat2 m off := by
  unfold readFloat2
  rw [readWord_congr m m' off (fun i h1 h2 => h i h1 (by omega)),
    readWord_congr m m' (off + 4) (fun i h1 h2 => h i (by omega) (by omega))]

/-! ## Lemmas: `append` -/

theorem append_length (t : Tile) (size : Nat) (rep : List Byte) :
    (t.append size rep).length = (t.length + size) % 4294967296 := rfl

theorem append_written (t : Tile) (size : Nat) (rep : List Byte) (k : Nat) (hk : k < size) :
    (t.append size rep).commands (t.length + k) = rep.getD k 0 := by
  simp only [Tile.append]
  rw [if_pos ⟨by omega, by omega⟩]
  congr 1
  omega

theorem append_frame (t : Tile) (size : Nat) (rep : List Byte) (i : Nat)
    (hi : i < t.length ∨ t.length + size ≤ i) :
    (t.append size rep).commands i = t.commands i := by
  simp only [Tile.append]
  rw [if_neg (by omega)]

theorem readWord_append (t : Tile) (size : Nat) (rep : List Byte) (k : Nat) (w : Word)
    (hk : k + 4 ≤ size) (h : (rep.drop k).take 4 = wordBytes w) :
    readWord (t.append size rep).commands (t.length + k) = w := by
  have hget : ∀ j, j < 4 → rep.getD (k + j) 0 = (wordBytes w).getD j 0 := by
    intro j hj
    rw [← h]
    simp only [List.getD_eq_getElem?_getD, List.getElem?_take, List.getElem?_drop, hj, if_true]
  apply readWord_of_bytes
  · have := append_written t size rep k (by omega)
    rw [this]
    exact hget 0 (by omega)
  · have := append_written t size rep (k + 1) (by omega)
    rw [Nat.add_assoc, this]
    exact hget 1 (by omega)
  · have := append_written t size rep (k + 2) (by omega)
    rw [Nat.add_assoc, this]
    exact hget 2 (by omega)
  · have := append_written t size rep (k + 3) (by omega)
    rw [Nat.add_assoc, this]
    exact hget 3 (by omega)

theorem readFloat2_append (t : Tile) (size : Nat) (rep : List Byte) (k : Nat) (v : float2)
    (hk : k + 8 ≤ size) (h : (rep.drop k).take 8 = v.bytes) :
    readFloat2 (t.append size rep).commands (t.length + k) = v := by
  obtain ⟨x, y⟩ := v
  unfold readFloat2
  have hx : (rep.drop k).take 4 = wordBytes x := by
    have := congrArg (List.take 4) h
    simpa [float2.bytes, wordBytes, List.take_take] using this
  have hy : (rep.drop (k + 4)).take 4 = wordBytes y := by
    have := congrArg (fun l => (l.drop 4).take 4) h
    simpa [float2.bytes, wordBytes, List.drop_take, List.take_take, Nat.add_comm] using this
  rw [readWord_append t size rep k x (by omega) hx, Nat.add_assoc,
    readWord_append t size rep (k + 4) y (by omega) hy]

/-! ## Lemmas: one write operation -/

theorem size_pos (c : Command) : 4 ≤ c.size := by
  cases c <;> exact Nat.le_of_ble_eq_true rfl

theorem size_le (c : Command) : c.size ≤ 32 := by
  cases c <;> exact Nat.le_of_ble_eq_true rfl

theorem exec_eq_append (t : Tile) (c : Command) (pad : Nat → Byte) :
    ∃ rep : List Byte, rep.length = c.size ∧ t.exec c pad = t.append c.size rep := by
  cases c with
  | End => exact ⟨vgerOp.vgerOpEnd.bytes, rfl, rfl⟩
  | Segment a b width => exact ⟨vgerCmdSegment.bytes ⟨.vgerOpSegment, a, b, width⟩ pad, rfl, rfl⟩
  | LineFill a b => exact ⟨vgerCmdLineFill.bytes ⟨.vgerOpLine, a, b⟩ pad, rfl, rfl⟩
  | BezFill a b c => exact ⟨vgerCmdBezFill.bytes ⟨.vgerOpBez, a, b, c⟩ pad, rfl, rfl⟩
  | Solid color => exact ⟨vgerCmdSolid.bytes ⟨.vgerOpSolid, color⟩, rfl, rfl⟩

theorem exec_length (t : Tile) (c : Command) (pad : Nat → Byte) :
    (t.exec c pad).length = (t.length + c.size) % 4294967296 := by
  obtain ⟨rep, _, h⟩ := exec_eq_append t c pad
  rw [h, append_length]

theorem exec_frame (t : Tile) (c : Command) (pad : Nat → Byte) (i : Nat)
    (hi : i < t.length ∨ t.length + c.size ≤ i) :
    (t.exec c pad).commands i = t.commands i := by
  obtain ⟨rep, _, h⟩ := exec_eq_append t c pad
  rw [h, append_frame t c.size rep i hi]

theorem exec_stored (t : Tile) (c : Command) (pad : Nat → Byte) :
    Stored (t.exec c pad).commands t.length c := by
  cases c with
  | End =>
      exact readWord_append t sizeof_vgerOp _ 0 _ (by decide) rfl
  | Segment a b width =>
      exact ⟨readWord_append t sizeof_vgerCmdSegment _ 0 _ (by decide) rfl,
        readFloat2_append t sizeof_vgerCmdSegment _ 8 a (by decide) rfl,
        readFloat2_append t sizeof_vgerCmdSegment _ 16 b (by decide) rfl,
        readWord_append t sizeof_vgerCmdSegment _ 24 width (by decide) rfl⟩
  | LineFill a b =>
      exact ⟨readWord_append t sizeof_vgerCmdLineFill _ 0 _ (by decide) rfl,
        readFloat2_append t sizeof_vgerCmdLineFill _ 8 a (by decide) rfl,
        readFloat2_append t sizeof_vgerCmdLineFill _ 16 b (by decide) rfl⟩
  | BezFill a b c =>
      exact ⟨readWord_append t sizeof_vgerCmdBezFill _ 0 _ (by decide) rfl,
        readFloat2_append t sizeof_vgerCmdBezFill _ 8 a (by decide) rfl,
        readFloat2_append t sizeof_vgerCmdBezFill _ 16 b (by decide) rfl,
        readFloat2_append t sizeof_vgerCmdBezFill _ 24 c (by decide) rfl⟩
  | Solid color =>
      exact ⟨readWord_append t sizeof_vgerCmdSolid _ 0 _ (by decide) rfl,
        readWord_append t sizeof_vgerCmdSolid _ 4 _ (by decide) rfl⟩

theorem stored_congr (m m' : Nat → Byte) (off : Nat) (c : Command)
    (h : ∀ i, off ≤ i → i < off + c.size → m' i = m i) (hs : Stored m off c) :
    Stored m' off c := by
  have w : ∀ k, k + 4 ≤ c.size → readWord m' (off + k) = readWord m (off + k) := by
    intro k hk
    exact readWord_congr m m' (off + k) (fun i h1 h2 => h i (by omega) (by omega))
  have f : ∀ k, k + 8 ≤ c.size → readFloat2 m' (off + k) = readFloat2 m (off + k) := by
    intro k hk
    exact readFloat2_congr m m' (off + k) (fun i h1 h2 => h i (by omega) (by omega))
  cases c with
  | End =>
      have h0 := w 0 (Nat.le_of_ble_eq_true rfl)
      simp only [Stored, Nat.add_zero] at hs h0 ⊢
      rw [h0, hs]
  | Segment a b width =>
      have h0 := w 0 (Nat.le_of_ble_eq_true rfl)
      simp only [Stored, Nat.add_zero] at hs h0 ⊢
      rw [h0, f 8 (Nat.le_of_ble_eq_true rfl), f 16 (Nat.le_of_ble_eq_true rfl), w 24 (Nat.le_of_ble_eq_true rfl)]
      exact hs
  | LineFill a b =>
      have h0 := w 0 (Nat.le_of_ble_eq_true rfl)
      simp only [Stored, Nat.add_zero] at hs h0 ⊢
      rw [h0, f 8 (Nat.le_of_ble_eq_true rfl), f 16 (Nat.le_of_ble_eq_true rfl)]
      exact hs
  | BezFill a b c =>
      have h0 := w 0 (Nat.le_of_ble_eq_true rfl)
      simp only [Stored, Nat.add_zero] at hs h0 ⊢
      rw [h0, f 8 (Nat.le_of_ble_eq_true rfl), f 16 (Nat.le_of_ble_eq_true rfl), f 24 (Nat.le_of_ble_eq_true rfl)]
      exact hs
  | Solid color =>
      have h0 := w 0 (Nat.le_of_ble_eq_true rfl)
      simp only [Stored, Nat.add_zero] at hs h0 ⊢
      rw [h0, w 4 (Nat.le_of_ble_eq_true rfl)]
      exact hs

theorem stored_op (m : Nat → Byte) (off : Nat) (c : Command) (hs : Stored m off c) :
    readWord m off = c.op.toWord := by
  cases c with
  | End => exact hs
  | Segment a b width => exact hs.1
  | LineFill a b => exact hs.1
  | BezFill a b c => exact hs.1
  | Solid color => exact hs.1

theorem vgerOp_ofWord_toWord (op : vgerOp) : vgerOp.ofWord op.toWord = some op := by
  cases op <;> rfl

theorem stored_payload (m : Nat → Byte) (off : Nat) (c : Command) (hs : Stored m off c) :
    readPayload m off c.op = c := by
  cases c with
  | End => rfl
  | Segment a b width =>
      obtain ⟨_, h1, h2, h3⟩ := hs
      simp only [readPayload, Command.op, h1, h2, h3]
  | LineFill a b =>
      obtain ⟨_, h1, h2⟩ := hs
      simp only [readPayload, Command.op, h1, h2]
  | BezFill a b c =>
      obtain ⟨_, h1, h2, h3⟩ := hs
      simp only [readPayload, Command.op, h1, h2, h3]
  | Solid color =>
      obtain ⟨_, h1⟩ := hs
      simp only [readPayload, Command.op, h1, cint_ofWord_toWord]

theorem decodeOne_of_stored (cap : Nat) (m : Nat → Byte) (off : Nat) (c : Command)
    (hs : Stored m off c) (hfit : off + c.size ≤ cap) :
    decodeOne cap m off = .ok (c, off + c.size) := by
  have h4 := size_pos c
  unfold decodeOne
  rw [if_pos (by simp only [sizeof_vgerOp]; omega), stored_op m off c hs, vgerOp_ofWord_toWord]
  simp only
  rw [if_pos (show off + c.op.size ≤ cap from hfit), stored_payload m off c hs]
  rfl

/-! ## Lemmas: sequences of calls -/

theorem totalSize_append (ks js : List Call) :
    totalSize (ks ++ js) = totalSize ks + totalSize js := by
  induction ks with
  | nil => simp only [List.nil_append, totalSize, Nat.zero_add]
  | cons k ks ih =>
      show k.1.size + totalSize (ks ++ js) = k.1.size + totalSize ks + totalSize js
      rw [ih, Nat.add_assoc]

theorem length_le_totalSize (ks : List Call) : 4 * ks.length ≤ totalSize ks := by
  induction ks with
  | nil => exact Nat.le_refl 0
  | cons k ks ih =>
      have := size_pos k.1
      simp only [List.length_cons, totalSize]
      omega

theorem run_append (t : Tile) (ks js : List Call) : t.run (ks ++ js) = (t.run ks).run js := by
  induction ks generalizing t with
  | nil => rfl
  | cons k ks ih => exact ih (t.exec k.1 k.2)

theorem run_length_mod (t : Tile) (ks : List Call) (ht : t.length < 4294967296) :
    (t.run ks).length = (t.length + totalSize ks) % 4294967296 := by
  induction ks generalizing t with
  | nil =>
      simp only [Tile.run, totalSize, Nat.add_zero]
      exact (Nat.mod_eq_of_lt ht).symm
  | cons k ks ih =>
      simp only [Tile.run, totalSize]
      rw [ih (t.exec k.1 k.2) (by rw [exec_length]; exact Nat.mod_lt _ (by decide)), exec_length]
      omega

theorem run_length (t : Tile) (ks : List Call) (h : t.length + totalSize ks < 4294967296) :
    (t.run ks).length = t.length + totalSize ks := by
  rw [run_length_mod t ks (by omega)]
  exact Nat.mod_eq_of_lt h

theorem run_frame (t : Tile) (ks : List Call) (h : t.length + totalSize ks < 4294967296)
    (i : Nat) (hi : i < t.length ∨ t.length + totalSize ks ≤ i) :
    (t.run ks).commands i = t.commands i := by
  induction ks generalizing t with
  | nil => rfl
  | cons k ks ih =>
      simp only [Tile.run, totalSize] at h hi ⊢
      have hl : (t.exec k.1 k.2).length = t.length + k.1.size := by
        rw [exec_length]
        exact Nat.mod_eq_of_lt (by omega)
      rw [ih (t.exec k.1 k.2) (by omega) (by omega), exec_frame t k.1 k.2 i (by omega)]

theorem run_storedSeq (t : Tile) (ks : List Call) (h : t.length + totalSize ks < 4294967296) :
    StoredSeq (t.run ks).commands t.length ks := by
  induction ks generalizing t with
  | nil => exact True.intro
  | cons k ks ih =>
      simp only [Tile.run, totalSize] at h ⊢
      have hl : (t.exec k.1 k.2).length = t.length + k.1.size := by
        rw [exec_length]
        exact Nat.mod_eq_of_lt (by omega)
      refine ⟨?_, ?_⟩
      · apply stored_congr (t.exec k.1 k.2).commands _ t.length k.1 _ (exec_stored t k.1 k.2)
        intro i h1 h2
        exact run_frame (t.exec k.1 k.2) ks (by omega) i (by omega)
      · have := ih (t.exec k.1 k.2) (by omega)
        rw [hl] at this
        exact this

theorem storedSeq_append (m : Nat → Byte) (off : Nat) (ks js : List Call) :
    StoredSeq m off (ks ++ js) ↔ StoredSeq m off ks ∧ StoredSeq m (off + totalSize ks) js := by
  induction ks generalizing off with
  | nil => simp only [List.nil_append, StoredSeq, totalSize, Nat.add_zero, true_and]
  | cons k ks ih =>
      show Stored m off k.1 ∧ StoredSeq m (off + k.1.size) (ks ++ js)
        ↔ (Stored m off k.1 ∧ StoredSeq m (off + k.1.size) ks)
          ∧ StoredSeq m (off + (k.1.size + totalSize ks)) js
      rw [ih, Nat.add_assoc, and_assoc]

theorem scanFrom_of_storedSeq (cap : Nat) (m : Nat → Byte) (ks : List Call) (fuel off : Nat)
    (hs : StoredSeq m off ks) (hfit : off + totalSize ks ≤ cap) (hfuel : ks.length < fuel) :
    scanFrom cap m (off + totalSize ks) fuel off = .ok (ks.map Prod.fst) := by
  induction ks generalizing fuel off with
  | nil =>
      obtain ⟨f, rfl⟩ : ∃ f, fuel = f + 1 := ⟨fuel - 1, by simp only [List.length_nil] at hfuel; omega⟩
      simp only [scanFrom, totalSize, Nat.add_zero, if_true, List.map_nil]
  | cons k ks ih =>
      obtain ⟨f, rfl⟩ : ∃ f, fuel = f + 1 := ⟨fuel - 1, by omega⟩
      have h4 := size_pos k.1
      simp only [totalSize, List.length_cons] at hfit hfuel
      simp only [scanFrom, totalSize, List.map_cons]
      rw [if_neg (by omega), decodeOne_of_stored cap m off k.1 hs.1 (by omega)]
      simp only
      have := ih f (off + k.1.size) hs.2 (by omega) (by omega)
      rw [Nat.add_assoc] at this
      rw [this]

theorem decodeFrom_of_storedSeq (cap : Nat) (m : Nat → Byte) (ks : List Call) (fuel off : Nat)
    (hs : StoredSeq m off ks) (hend : Stored m (off + totalSize ks) .End)
    (hne : ∀ k ∈ ks, k.1 ≠ .End)
    (hfit : off + totalSize ks + sizeof_vgerOp ≤ cap) (hfuel : ks.length < fuel) :
    decodeFrom cap m fuel off
      = .ok (ks.map Prod.fst ++ [.End], off + totalSize ks + sizeof_vgerOp) := by
  induction ks generalizing fuel off with
  | nil =>
      obtain ⟨f, rfl⟩ : ∃ f, fuel = f + 1 := ⟨fuel - 1, by simp only [List.length_nil] at hfuel; omega⟩
      simp only [totalSize, Nat.add_zero] at hend hfit ⊢
      simp only [decodeFrom, decodeOne_of_stored cap m off .End hend hfit, List.map_nil,
        List.nil_append]
      rfl
  | cons k ks ih =>
      obtain ⟨f, rfl⟩ : ∃ f, fuel = f + 1 := ⟨fuel - 1, by omega⟩
      have h4 := size_pos k.1
      simp only [totalSize, List.length_cons] at hfit hfuel hend
      have hk : k.1 ≠ .End := hne k (List.mem_cons_self _ _)
      have := ih f (off + k.1.size) hs.2 (by rw [Nat.add_assoc]; exact hend)
        (fun j hj => hne j (List.mem_cons_of_mem _ hj)) (by omega) (by omega)
      simp only [decodeFrom, decodeOne_of_stored cap m off k.1 hs.1 (by omega), totalSize,
        List.map_cons, List.cons_append]
      cases hc : k.1 with
      | End => exact absurd hc hk
      | Segment a b width => simp only [hc] at this; simp only [this, Nat.add_assoc]
      | LineFill a b => simp only [hc] at this; simp only [this, Nat.add_assoc]
      | BezFill a b c => simp only [hc] at this; simp only [this, Nat.add_assoc]
      | Solid color => simp only [hc] at this; simp only [this, Nat.add_assoc]


theorem exec_append_bytes (t : Tile) (c : Command) (pad : Nat → Byte) :
    t.exec c pad = t.append c.size (c.bytes pad) := by
  cases c <;> rfl

theorem bytes_length (c : Command) (pad : Nat → Byte) : (c.bytes pad).length = c.size := by
  cases c <;> rfl

theorem bytes_take_four (c : Command) (pad : Nat → Byte) :
    (c.bytes pad).take 4 = wordBytes c.op.toWord := by
  cases c <;> rfl

theorem bytes_layout (c : Command) (pad : Nat → Byte) :
    c.bytes pad
      = wordBytes c.op.toWord ++ (c.padding pad).1 ++ wordsBytes c.fields ++ (c.padding pad).2 := by
  cases c <;> rfl

theorem append_range (t : Tile) (size : Nat) (rep : List Byte) (hrep : rep.length = size) :
    (List.range size).map (fun k => (t.append size rep).commands (t.length + k)) = rep := by
  apply List.ext_getElem
  · simp only [List.length_map, List.length_range, hrep]
  · intro n h1 h2
    simp only [List.getElem_map, List.getElem_range]
    rw [append_written t size rep n (by omega), List.getD_eq_getElem?_getD,
      List.getElem?_eq_getElem h2]
    rfl

theorem decodeOne_overflow (cap : Nat) (m : Nat → Byte) (off : Nat) (c : Command)
    (hs : Stored m off c) (hop : off + sizeof_vgerOp ≤ cap) (hover : cap < off + c.size) :
    decodeOne cap m off = .error .UnterminatedBuffer := by
  unfold decodeOne
  rw [if_pos hop, stored_op m off c hs, vgerOp_ofWord_toWord]
  simp only
  rw [if_neg (show ¬ off + c.op.size ≤ cap from by
    have : off + c.op.size = off + c.size := rfl
    omega)]

theorem decodeFrom_overflow (cap : Nat) (m : Nat → Byte) (ks : List Call) (k : Call)
    (fuel off : Nat) (hs : StoredSeq m off ks) (hk : Stored m (off + totalSize ks) k.1)
    (hne : ∀ j ∈ ks, j.1 ≠ .End) (hop : off + totalSize ks + sizeof_vgerOp ≤ cap)
    (hover : cap < off + totalSize ks + k.1.size) :
    decodeFrom cap m fuel off = .error .UnterminatedBuffer := by
  induction ks generalizing fuel off with
  | nil =>
      cases fuel with
      | zero => rfl
      | succ f =>
          simp only [totalSize, Nat.add_zero] at hk hop hover
          simp only [decodeFrom, decodeOne_overflow cap m off k.1 hk hop hover]
  | cons j js ih =>
      cases fuel with
      | zero => rfl
      | succ f =>
          have h4 := size_pos j.1
          simp only [totalSize] at hk hop hover
          have hj : j.1 ≠ .End := hne j (List.mem_cons_self _ _)
          have := ih f (off + j.1.size) hs.2 (by rw [Nat.add_assoc]; exact hk)
            (fun i hi => hne i (List.mem_cons_of_mem _ hi)) (by omega) (by omega)
          simp only [sizeof_vgerOp] at hop
          simp only [decodeFrom, decodeOne_of_stored cap m off j.1 hs.1 (by omega)]
          cases hc : j.1 with
          | End => exact absurd hc hj
          | Segment a b width => simp only [hc] at this; simp only [this]
          | LineFill a b => simp only [hc] at this; simp only [this]
          | BezFill a b c => simp only [hc] at this; simp only [this]
          | Solid color => simp only [hc] at this; simp only [this]

theorem run_end (t : Tile) (ks : List Call) (pad : Nat → Byte) :
    (t.run ks).end_ = t.run (ks ++ [(Command.End, pad)]) := by
  rw [run_append]
  rfl

theorem scan_run (m : Nat → Byte) (ks : List Call) (hfit : totalSize ks ≤ tileBufSize) :
    ((Tile.empty m).run ks).scan = .ok (ks.map Prod.fst) := by
  have hcap : tileBufSize = 64 := rfl
  have hlt : (Tile.empty m).length + totalSize ks < 4294967296 := by
    show 0 + totalSize ks < 4294967296
    omega
  have hlen : ((Tile.empty m).run ks).length = 0 + totalSize ks := run_length _ _ hlt
  have hlk := length_le_totalSize ks
  unfold Tile.scan
  rw [hlen]
  exact scanFrom_of_storedSeq tileBufSize _ ks (tileBufSize + 1) 0
    (run_storedSeq (Tile.empty m) ks hlt) (by omega) (by omega)

theorem squareCalls_nonEnd (pad : Nat → Byte) : ∀ k ∈ squareCalls pad, k.1 ≠ Command.End := by
  intro k hk
  simp only [squareCalls, squareEdges, List.map_cons, List.map_nil, List.mem_cons,
    List.mem_singleton, List.not_mem_nil, or_false] at hk
  rcases hk with h | h | h | h | h <;> rw [h] <;> exact Command.noConfusion

/-! ## Lemmas: unambiguous encoding -/

theorem toWord_inj (o1 o2 : vgerOp) (h : o1.toWord = o2.toWord) : o1 = o2 := by
  cases o1 <;> cases o2 <;> first | rfl | exact absurd h (by decide)

theorem isDataByte_disc (op : vgerOp) (j : Nat) (h : j < 4) : isDataByte op j := by
  cases op <;> simp only [isDataByte] <;> omega

theorem isDataByte_lt (op : vgerOp) (j : Nat) (h : isDataByte op j) : j < op.size := by
  cases op <;>
    simp only [isDataByte, vgerOp.size, sizeof_vgerOp, sizeof_vgerCmdLineFill,
      sizeof_vgerCmdBezFill, sizeof_vgerCmdSolid, sizeof_vgerCmdSegment] at h ⊢ <;> omega

theorem isData_range (ks : List Call) (off i : Nat) (h : isData ks off i) :
    off ≤ i ∧ i < off + totalSize ks := by
  induction ks generalizing off with
  | nil => exact False.elim h
  | cons k ks ih =>
      simp only [totalSize]
      rcases h with ⟨h1, h2⟩ | h
      · have := isDataByte_lt k.1.op (i - off) h2
        have hs : k.1.op.size = k.1.size := rfl
        omega
      · have := ih (off + k.1.size) h
        omega

theorem stored_congr_data (m m' : Nat → Byte) (off : Nat) (c : Command)
    (h : ∀ j, isDataByte c.op j → m' (off + j) = m (off + j)) (hs : Stored m off c) :
    Stored m' off c := by
  have w : ∀ k, (∀ j, k ≤ j → j < k + 4 → isDataByte c.op j) →
      readWord m' (off + k) = readWord m (off + k) := by
    intro k hk
    apply readWord_congr
    intro i h1 h2
    have := h (i - off) (hk (i - off) (by omega) (by omega))
    rwa [show off + (i - off) = i from by omega] at this
  have f : ∀ k, (∀ j, k ≤ j → j < k + 8 → isDataByte c.op j) →
      readFloat2 m' (off + k) = readFloat2 m (off + k) := by
    intro k hk
    apply readFloat2_congr
    intro i h1 h2
    have := h (i - off) (hk (i - off) (by omega) (by omega))
    rwa [show off + (i - off) = i from by omega] at this
  cases c with
  | End =>
      have h0 := w 0 (fun j _ hj => isDataByte_disc _ j (by omega))
      simp only [Stored, Nat.add_zero] at hs h0 ⊢
      rw [h0, hs]
  | Segment a b width =>
      have h0 := w 0 (fun j _ hj => isDataByte_disc _ j (by omega))
      have h8 := f 8 (fun j h1 h2 => Or.inr ⟨h1, by omega⟩)
      have h16 := f 16 (fun j h1 h2 => Or.inr ⟨by omega, by omega⟩)
      have h24 := w 24 (fun j h1 h2 => Or.inr ⟨by omega, by omega⟩)
      simp only [Stored, Nat.add_zero] at hs h0 ⊢
      rw [h0, h8, h16, h24]
      exact hs
  | LineFill a b =>
      have h0 := w 0 (fun j _ hj => isDataByte_disc _ j (by omega))
      have h8 := f 8 (fun j h1 h2 => Or.inr ⟨h1, by omega⟩)
      have h16 := f 16 (fun j h1 h2 => Or.inr ⟨by omega, by omega⟩)
      simp only [Stored, Nat.add_zero] at hs h0 ⊢
      rw [h0, h8, h16]
      exact hs
  | BezFill a b c =>
      have h0 := w 0 (fun j _ hj => isDataByte_disc _ j (by omega))
      have h8 := f 8 (fun j h1 h2 => Or.inr ⟨h1, by omega⟩)
      have h16 := f 16 (fun j h1 h2 => Or.inr ⟨by omega, by omega⟩)
      have h24 := f 24 (fun j h1 h2 => Or.inr ⟨by omega, by omega⟩)
      simp only [Stored, Nat.add_zero] at hs h0 ⊢
      rw [h0, h8, h16, h24]
      exact hs
  | Solid color =>
      have h0 := w 0 (fun j _ hj => isDataByte_disc _ j (by omega))
      have h4 := w 4 (fun j h1 h2 => show j < 8 from by omega)
      simp only [Stored, Nat.add_zero] at hs h0 ⊢
      rw [h0, h4]
      exact hs

theorem stored_inj (m : Nat → Byte) (off : Nat) (c1 c2 : Command)
    (h1 : Stored m off c1) (h2 : Stored m off c2) : c1 = c2 := by
  have hop : c1.op = c2.op :=
    toWord_inj _ _ ((stored_op m off c1 h1).symm.trans (stored_op m off c2 h2))
  have p1 := stored_payload m off c1 h1
  have p2 := stored_payload m off c2 h2
  rw [hop] at p1
  exact p1.symm.trans p2

theorem storedSeq_unique (m1 m2 : Nat → Byte) (ks1 ks2 : List Call) (off : Nat)
    (h1 : StoredSeq m1 off ks1) (h2 : StoredSeq m2 off ks2)
    (hsize : totalSize ks1 = totalSize ks2)
    (hsame : ∀ i, isData ks1 off i → isData ks2 off i → m1 i = m2 i) :
    ks1.map Prod.fst = ks2.map Prod.fst := by
  induction ks1 generalizing ks2 off with
  | nil =>
      cases ks2 with
      | nil => rfl
      | cons k2 r2 =>
          have := size_pos k2.1
          simp only [totalSize] at hsize
          omega
  | cons k1 r1 ih =>
      cases ks2 with
      | nil =>
          have := size_pos k1.1
          simp only [totalSize] at hsize
          omega
      | cons k2 r2 =>
          have hword : readWord m1 off = readWord m2 off := by
            apply readWord_congr
            intro i hi1 hi2
            exact hsame i (Or.inl ⟨hi1, isDataByte_disc _ _ (by omega)⟩)
              (Or.inl ⟨hi1, isDataByte_disc _ _ (by omega)⟩)
          have hop : k1.1.op = k2.1.op := by
            apply toWord_inj
            rw [← stored_op m1 off k1.1 h1.1, ← stored_op m2 off k2.1 h2.1]
            exact hword
          have hs2 : Stored m2 off k1.1 := by
            apply stored_congr_data m1 m2 off k1.1 _ h1.1
            intro j hj
            have hj2 : isDataByte k2.1.op j := hop ▸ hj
            have e : off + j - off = j := by omega
            exact (hsame (off + j) (Or.inl ⟨by omega, by rw [e]; exact hj⟩)
              (Or.inl ⟨by omega, by rw [e]; exact hj2⟩)).symm
          have hk : k1.1 = k2.1 := stored_inj m2 off k1.1 k2.1 hs2 h2.1
          have hsz : k1.1.size = k2.1.size := by rw [hk]
          simp only [totalSize] at hsize
          have hrest := ih r2 (off + k1.1.size) h1.2 (by rw [hsz]; exact h2.2) (by omega)
            (fun i d1 d2 => hsame i (Or.inr d1) (Or.inr (by rw [← hsz]; exact d2)))
          simp only [List.map_cons, hk, hrest]

/-! ## Lemmas: sizes and counts -/

theorem nonEnd_size (c : Command) (h : c ≠ Command.End) :
    8 ≤ c.size ∧ c.size % 8 = 0 := by
  cases c with
  | End => exact absurd rfl h
  | Segment a b width =>
      have hs : (Command.Segment a b width).size = 32 := rfl
      omega
  | LineFill a b =>
      have hs : (Command.LineFill a b).size = 24 := rfl
      omega
  | BezFill a b c =>
      have hs : (Command.BezFill a b c).size = 32 := rfl
      omega
  | Solid color =>
      have hs : (Command.Solid color).size = 8 := rfl
      omega

theorem nonEnd_totalSize (ks : List Call) (hne : ∀ k ∈ ks, k.1 ≠ Command.End) :
    8 * ks.length ≤ totalSize ks ∧ totalSize ks % 8 = 0 := by
  induction ks with
  | nil => exact ⟨Nat.le_refl 0, rfl⟩
  | cons k ks ih =>
      have hk := nonEnd_size k.1 (hne k (List.mem_cons_self _ _))
      have := ih (fun j hj => hne j (List.mem_cons_of_mem _ hj))
      simp only [List.length_cons, totalSize]
      omega

theorem countOps_line_le (ks : List Call) : 24 * countOps isLine ks ≤ totalSize ks := by
  induction ks with
  | nil => exact Nat.le_refl 0
  | cons k ks ih =>
      have hs : k.1.size = k.1.op.size := rfl
      simp only [countOps, totalSize, hs]
      cases k.1.op <;>
        simp only [isLine, vgerOp.size, sizeof_vgerOp, sizeof_vgerCmdLineFill,
          sizeof_vgerCmdBezFill, sizeof_vgerCmdSolid, sizeof_vgerCmdSegment, if_true,
          Bool.false_eq_true, if_false] <;> omega

theorem countOps_segmentOrBez_le (ks : List Call) :
    32 * countOps isSegmentOrBez ks ≤ totalSize ks := by
  induction ks with
  | nil => exact Nat.le_refl 0
  | cons k ks ih =>
      have hs : k.1.size = k.1.op.size := rfl
      simp only [countOps, totalSize, hs]
      cases k.1.op <;>
        simp only [isSegmentOrBez, vgerOp.size, sizeof_vgerOp, sizeof_vgerCmdLineFill,
          sizeof_vgerCmdBezFill, sizeof_vgerCmdSolid, sizeof_vgerCmdSegment, if_true,
          Bool.false_eq_true, if_false] <;> omega

theorem totalSize_perm (ks js : List Call) (h : ks.Perm js) : totalSize ks = totalSize js := by
  induction h with
  | nil => rfl
  | cons k _ ih => simp only [totalSize, ih]
  | swap k j l => simp only [totalSize]; omega
  | trans _ _ ih1 ih2 => exact ih1.trans ih2

theorem totalSize_replicate (n : Nat) (k : Call) :
    totalSize (List.replicate n k) = n * k.1.size := by
  induction n with
  | zero => simp only [List.replicate, totalSize, Nat.zero_mul]
  | succ n ih => simp only [List.replicate, totalSize, ih, Nat.succ_mul]; omega

theorem end_length (t : Tile) : t.end_.length = (t.length + sizeof_vgerOp) % 4294967296 := rfl

theorem wrapped_run (n : Nat) (m : Nat → Byte) (a b : float2) (width : float)
    (pad : Nat → Byte) (hn : n * 32 = 4294967296) :
    (∀ k ∈ List.replicate n ((Command.Segment a b width, pad) : Call), k.1 ≠ Command.End)
    ∧ ((Tile.empty m).run (List.replicate n (Command.Segment a b width, pad))).end_.length = 4
    ∧ ((Tile.empty m).run (List.replicate n (Command.Segment a b width, pad))).end_.length
        ≤ tileBufSize
    ∧ totalSize (List.replicate n ((Command.Segment a b width, pad) : Call)) = 4294967296
    ∧ ¬ totalSize (List.replicate n ((Command.Segment a b width, pad) : Call)) ≤ 56
    ∧ (List.replicate n ((Command.Segment a b width, pad) : Call)).length = n
    ∧ ¬ (List.replicate n ((Command.Segment a b width, pad) : Call)).length ≤ 7 := by
  have htot : totalSize (List.replicate n ((Command.Segment a b width, pad) : Call))
      = 4294967296 := by
    rw [totalSize_replicate]
    exact hn
  have hlen : ((Tile.empty m).run
      (List.replicate n (Command.Segment a b width, pad))).end_.length = 4 := by
    rw [end_length, run_length_mod _ _ (show (0 : Nat) < 4294967296 from by omega), htot]
    have h4 : sizeof_vgerOp = 4 := rfl
    have h0 : (Tile.empty m).length = 0 := rfl
    omega
  refine ⟨?_, hlen, ?_, htot, ?_, List.length_replicate _ _, ?_⟩
  · intro k hk
    rw [List.eq_of_mem_replicate hk]
    exact Command.noConfusion
  · rw [hlen]
    exact Nat.le_of_ble_eq_true rfl
  · omega
  · rw [List.length_replicate]
    omega

/-! ## The claims -/

/-- C1: round trip. For every command (each of the five variants, with any field
values) and every tile state in which the command fits within the 64-byte
buffer, writing the command with its matching operation and then decoding one
command at the old cursor yields the same variant with the same fields, and the
cursor just after it. -/
theorem roundtrip_decodeOne (t : Tile) (c : Command) (pad : Nat → Byte)
    (hfit : t.length + c.size ≤ tileBufSize) :
    decodeOne tileBufSize (t.exec c pad).commands t.length = .ok (c, t.length + c.size) :=
  decodeOne_of_stored tileBufSize _ t.length c (exec_stored t c pad) hfit

/-- Witness of C1: a segment written into the empty tile. -/
theorem roundtrip_decodeOne_witness :
    (Tile.empty zeroMem).length + (Command.Segment ⟨f0, f10⟩ ⟨f10, f1⟩ f1).size ≤ tileBufSize
    ∧ decodeOne tileBufSize
        ((Tile.empty zeroMem).exec (Command.Segment ⟨f0, f10⟩ ⟨f10, f1⟩ f1) zeroPad).commands 0
      = .ok (Command.Segment ⟨f0, f10⟩ ⟨f10, f1⟩ f1, 32) :=
  ⟨by decide,
    roundtrip_decodeOne (Tile.empty zeroMem) (Command.Segment ⟨f0, f10⟩ ⟨f10, f1⟩ f1) zeroPad
      (by decide)⟩

/-- C2: sequence preservation. For every list of non-End commands whose total
encoded length plus the End marker is at most 64, calling the matching
operations in order on an empty tile and then `end()` gives a buffer whose
decode from offset 0 yields exactly the commands in order followed by End, and
stops at the final length, which is the total length plus 4. -/
theorem decode_run_end (m : Nat → Byte) (ks : List Call)
    (hne : ∀ k ∈ ks, k.1 ≠ Command.End)
    (hfit : totalSize ks + sizeof_vgerOp ≤ tileBufSize) :
    ((Tile.empty m).run ks).end_.decode
        = .ok (ks.map Prod.fst ++ [Command.End], ((Tile.empty m).run ks).end_.length)
    ∧ ((Tile.empty m).run ks).end_.length = totalSize ks + sizeof_vgerOp := by
  have hcap : tileBufSize = 64 := rfl
  have h4 : sizeof_vgerOp = 4 := rfl
  have htot : totalSize (ks ++ [(Command.End, zeroPad)]) = totalSize ks + sizeof_vgerOp := by
    rw [totalSize_append]
    rfl
  have hlen : ((Tile.empty m).run ks).end_.length = totalSize ks + sizeof_vgerOp := by
    rw [run_end _ ks zeroPad, run_length _ _ (by
      rw [htot]
      show 0 + (totalSize ks + sizeof_vgerOp) < 4294967296
      omega), htot]
    exact Nat.zero_add _
  have hs := run_storedSeq (Tile.empty m) (ks ++ [(Command.End, zeroPad)]) (by
    rw [htot]
    show 0 + (totalSize ks + sizeof_vgerOp) < 4294967296
    omega)
  rw [← run_end] at hs
  obtain ⟨hks, hend, _⟩ := (storedSeq_append _ _ ks _).1 hs
  have hlk := length_le_totalSize ks
  have hd := decodeFrom_of_storedSeq tileBufSize ((Tile.empty m).run ks).end_.commands ks
    tileBufSize 0 hks hend hne (by
      show 0 + totalSize ks + sizeof_vgerOp ≤ tileBufSize
      omega) (by omega)
  refine ⟨?_, hlen⟩
  rw [hlen]
  unfold Tile.decode
  rw [hd, Nat.zero_add]

/-- Witness of C2: `solid(7)`, two edges of the square, `end()`. -/
theorem decode_run_end_witness :
    ((Tile.empty zeroMem).run ((squareCalls zeroPad).take 3)).end_.decode
      = .ok (((squareCalls zeroPad).take 3).map Prod.fst ++ [Command.End],
          ((Tile.empty zeroMem).run ((squareCalls zeroPad).take 3)).end_.length) :=
  (decode_run_end zeroMem ((squareCalls zeroPad).take 3) (by decide) (by decide)).1

/-- C3: postcondition of `append`. For every tile state and every object of
`size` bytes `rep`, `append` stores those bytes at the offsets
`[length, length + size)` of `commands` and sets the cursor to the old cursor
plus `size` (in the `uint` arithmetic of the cursor: exactly `length + size`
whenever that is below 2^32). For each of the five write operations the object
is the representation of its command, of the command's size, and its first four
bytes are the discriminator; the payload fields follow at their struct
offsets. -/
theorem append_postcondition (t : Tile) :
    (∀ (size : Nat) (rep : List Byte), rep.length = size →
        (List.range size).map (fun k => (t.append size rep).commands (t.length + k)) = rep
        ∧ (t.append size rep).length = (t.length + size) % 4294967296
        ∧ (t.length + size < 4294967296 → (t.append size rep).length = t.length + size))
    ∧ (∀ (c : Command) (pad : Nat → Byte),
        t.exec c pad = t.append c.size (c.bytes pad)
        ∧ (c.bytes pad).length = c.size
        ∧ (c.bytes pad).take 4 = wordBytes c.op.toWord
        ∧ Stored (t.exec c pad).commands t.length c) := by
  refine ⟨?_, ?_⟩
  · intro size rep hrep
    exact ⟨append_range t size rep hrep, rfl, fun h => Nat.mod_eq_of_lt h⟩
  · intro c pad
    exact ⟨exec_append_bytes t c pad, bytes_length c pad, bytes_take_four c pad,
      exec_stored t c pad⟩

/-- Witness of C3: `solid(7)` on the empty tile stores the eight bytes
`03 00 00 00 07 00 00 00` at offsets 0 to 7 and sets the cursor to 8. -/
theorem append_postcondition_witness :
    (List.range 8).map (fun k => ((Tile.empty zeroMem).append 8
        [3, 0, 0, 0, 7, 0, 0, 0]).commands ((Tile.empty zeroMem).length + k))
      = [3, 0, 0, 0, 7, 0, 0, 0]
    ∧ (Tile.empty zeroMem).exec (Command.Solid seven) zeroPad
      = (Tile.empty zeroMem).append 8 [3, 0, 0, 0, 7, 0, 0, 0] :=
  ⟨((append_postcondition (Tile.empty zeroMem)).1 8 [3, 0, 0, 0, 7, 0, 0, 0] rfl).1,
    ((append_postcondition (Tile.empty zeroMem)).2 (Command.Solid seven) zeroPad).1⟩

/-- Counterexample to C4: the tile that two `segment` calls have filled has
cursor 64; `solid(7)` on it is not rejected: the cursor becomes 72 and byte 64,
beyond the array, changes from 0 to the discriminator 3. -/
theorem overflow_not_rejected :
    fullTile.length = 64
    ∧ tileBufSize < fullTile.length + sizeof_vgerCmdSolid
    ∧ (fullTile.solid seven).length = 72
    ∧ fullTile.commands 64 = 0
    ∧ (fullTile.solid seven).commands 64 = 3
    ∧ ¬ ((fullTile.solid seven).length = fullTile.length
          ∧ (fullTile.solid seven).commands 64 = fullTile.commands 64) := by
  decide

/-- C4, amended: `append` has no capacity check and no failure result. For every
tile state and every object whose size satisfies `length + size > 64`, it stores
the object's bytes at `[length, length + size)`, of which the last lies at an
index `≥ 64`, it leaves every byte outside that range unchanged, and it advances
the cursor by `size` (modulo 2^32). -/
theorem append_unchecked (t : Tile) (size : Nat) (rep : List Byte)
    (hover : tileBufSize < t.length + size) :
    (∀ k, k < size → (t.append size rep).commands (t.length + k) = rep.getD k 0)
    ∧ (0 < size → tileBufSize ≤ t.length + (size - 1)
        ∧ (t.append size rep).commands (t.length + (size - 1)) = rep.getD (size - 1) 0)
    ∧ (∀ i, i < t.length ∨ t.length + size ≤ i → (t.append size rep).commands i = t.commands i)
    ∧ (t.append size rep).length = (t.length + size) % 4294967296 := by
  refine ⟨fun k hk => append_written t size rep k hk, ?_,
    fun i hi => append_frame t size rep i hi, rfl⟩
  intro hpos
  exact ⟨by omega, append_written t size rep (size - 1) (by omega)⟩

/-- Witness of C4, amended: `solid(7)` on the full tile. -/
theorem append_unchecked_witness :
    tileBufSize < fullTile.length + sizeof_vgerCmdSolid
    ∧ (fullTile.append sizeof_vgerCmdSolid (vgerCmdSolid.bytes ⟨.vgerOpSolid, seven⟩)).length
        = (fullTile.length + sizeof_vgerCmdSolid) % 4294967296 :=
  ⟨by decide,
    (append_unchecked fullTile sizeof_vgerCmdSolid (vgerCmdSolid.bytes ⟨.vgerOpSolid, seven⟩)
      (by decide)).2.2.2⟩

/-- Counterexample to C5: three `segment` calls from the empty tile leave the
cursor at 96, above the capacity 64. -/
theorem capacity_exceeded_by_three_segments :
    ((Tile.empty zeroMem).run
        [(Command.Segment ⟨f0, f0⟩ ⟨f10, f0⟩ f1, zeroPad),
         (Command.Segment ⟨f10, f0⟩ ⟨f10, f10⟩ f1, zeroPad),
         (Command.Segment ⟨f10, f10⟩ ⟨f0, f10⟩ f1, zeroPad)]).length = 96
    ∧ ¬ ((Tile.empty zeroMem).run
        [(Command.Segment ⟨f0, f0⟩ ⟨f10, f0⟩ f1, zeroPad),
         (Command.Segment ⟨f10, f0⟩ ⟨f10, f10⟩ f1, zeroPad),
         (Command.Segment ⟨f10, f10⟩ ⟨f0, f10⟩ f1, zeroPad)]).length ≤ tileBufSize := by
  decide

/-- C5, amended: the operations do not bound the cursor; the bound is the
caller's. For every sequence of calls from the empty tile whose cumulative
encoded length is at most 64, the cursor after every call is the cumulative
length so far and is at most 64, and no byte at an index `≥ 64` is changed. -/
theorem capacity_kept_within_budget (m : Nat → Byte) (ks : List Call)
    (hfit : totalSize ks ≤ tileBufSize) (n : Nat) :
    ((Tile.empty m).run (ks.take n)).length = totalSize (ks.take n)
    ∧ ((Tile.empty m).run (ks.take n)).length ≤ tileBufSize
    ∧ ∀ i, tileBufSize ≤ i → ((Tile.empty m).run (ks.take n)).commands i = m i := by
  have hcap : tileBufSize = 64 := rfl
  have hsplit : totalSize (ks.take n) + totalSize (ks.drop n) = totalSize ks := by
    rw [← totalSize_append, List.take_append_drop]
  have hlen : ((Tile.empty m).run (ks.take n)).length = totalSize (ks.take n) := by
    rw [run_length _ _ (by
      show 0 + totalSize (ks.take n) < 4294967296
      omega)]
    exact Nat.zero_add _
  refine ⟨hlen, by omega, ?_⟩
  intro i hi
  exact run_frame (Tile.empty m) (ks.take n) (by
    show 0 + totalSize (ks.take n) < 4294967296
    omega) i (Or.inr (by
    show 0 + totalSize (ks.take n) ≤ i
    omega))

/-- Witness of C5, amended: `solid(7)` and two edges of the square, all three
calls. -/
theorem capacity_kept_within_budget_witness :
    totalSize ((squareCalls zeroPad).take 3) ≤ tileBufSize
    ∧ ((Tile.empty zeroMem).run (((squareCalls zeroPad).take 3).take 3)).length ≤ tileBufSize :=
  ⟨by decide,
    (capacity_kept_within_budget zeroMem ((squareCalls zeroPad).take 3) (by decide) 3).2.1⟩

/-- C6: exact fill. For every list of calls whose cumulative encoded length is
exactly 64, made in order on an empty tile: the final cursor is exactly 64, no
byte at an index `≥ 64` is changed, every call starts at the cumulative length
of the calls before it and ends within the 64 bytes, and in the final buffer
every command is decoded at its offset. -/
theorem exact_fill (m : Nat → Byte) (ks : List Call) (hfull : totalSize ks = tileBufSize) :
    ((Tile.empty m).run ks).length = tileBufSize
    ∧ (∀ i, tileBufSize ≤ i → ((Tile.empty m).run ks).commands i = m i)
    ∧ (∀ pre k post, ks = pre ++ k :: post →
        ((Tile.empty m).run pre).length = totalSize pre
        ∧ totalSize pre + k.1.size ≤ tileBufSize
        ∧ decodeOne tileBufSize ((Tile.empty m).run ks).commands (totalSize pre)
            = .ok (k.1, totalSize pre + k.1.size)) := by
  have hcap : tileBufSize = 64 := rfl
  have hlt : (Tile.empty m).length + totalSize ks < 4294967296 := by
    show 0 + totalSize ks < 4294967296
    omega
  refine ⟨?_, ?_, ?_⟩
  · rw [run_length _ _ hlt, ← hfull]
    exact Nat.zero_add _
  · intro i hi
    exact run_frame (Tile.empty m) ks hlt i (Or.inr (by
      show 0 + totalSize ks ≤ i
      omega))
  · intro pre k post hks
    have htot : totalSize ks = totalSize pre + (k.1.size + totalSize post) := by
      rw [hks, totalSize_append]
      rfl
    have hs := run_storedSeq (Tile.empty m) ks hlt
    have hs2 : StoredSeq ((Tile.empty m).run ks).commands (0 + totalSize pre) (k :: post) := by
      have := (storedSeq_append ((Tile.empty m).run ks).commands 0 pre (k :: post)).1
        (by rw [← hks]; exact hs)
      exact this.2
    rw [Nat.zero_add] at hs2
    refine ⟨?_, by omega, decodeOne_of_stored tileBufSize _ _ k.1 hs2.1 (by omega)⟩
    rw [run_length _ _ (by
      show 0 + totalSize pre < 4294967296
      omega)]
    exact Nat.zero_add _

/-- Witness of C6: the two `segment` calls of the full tile. -/
theorem exact_fill_witness :
    totalSize [(Command.Segment ⟨f0, f0⟩ ⟨f10, f0⟩ f1, zeroPad),
      (Command.Segment ⟨f10, f0⟩ ⟨f10, f10⟩ f1, zeroPad)] = tileBufSize
    ∧ ((Tile.empty zeroMem).run [(Command.Segment ⟨f0, f0⟩ ⟨f10, f0⟩ f1, zeroPad),
      (Command.Segment ⟨f10, f0⟩ ⟨f10, f10⟩ f1, zeroPad)]).length = tileBufSize :=
  ⟨by decide,
    (exact_fill zeroMem [(Command.Segment ⟨f0, f0⟩ ⟨f10, f0⟩ f1, zeroPad),
      (Command.Segment ⟨f10, f0⟩ ⟨f10, f10⟩ f1, zeroPad)] (by decide)).1⟩

/-- Counterexample to C7: in the end-to-end scenario the cursor after the six
calls is 8, 32, 56, 80, 104, 108: the third `lineFill` passes the capacity 64.
Byte 67, beyond the array, changes from 0 to 65 (the top byte of 10.0), and
decoding within the 64 bytes fails instead of yielding the six commands. -/
theorem square_scenario_overflows :
    cursors (Tile.empty zeroMem) (squareCalls zeroPad ++ [(Command.End, zeroPad)])
      = [8, 32, 56, 80, 104, 108]
    ∧ ¬ (squareTile zeroMem zeroPad).length ≤ tileBufSize
    ∧ zeroMem 67 = 0
    ∧ (squareTile zeroMem zeroPad).commands 67 = 65
    ∧ (squareTile zeroMem zeroPad).decode = .error .UnterminatedBuffer
    ∧ (squareTile zeroMem zeroPad).decode
        ≠ .ok (Command.Solid seven :: squareEdges ++ [Command.End], 108) := by
  decide

/-- C7, amended: the end-to-end scenario takes 108 bytes, not 64. From an empty
tile the cursor after the six calls is 8, 32, 56, 80, 104, 108; `solid(7)` and
the first two `lineFill` calls stay within the 64 bytes (no byte at an index
`≥ 64` is changed and they decode in order), the third `lineFill` ends at 80;
decoding within the capacity 64 fails with `UnterminatedBuffer`, and decoding
the 108 bytes yields exactly `[Solid 7, the four LineFill, End]`. -/
theorem square_scenario (m pad : Nat → Byte) :
    cursors (Tile.empty m) (squareCalls pad ++ [(Command.End, pad)])
      = [8, 32, 56, 80, 104, 108]
    ∧ (∀ i, tileBufSize ≤ i → ((Tile.empty m).run ((squareCalls pad).take 3)).commands i = m i)
    ∧ ((Tile.empty m).run ((squareCalls pad).take 3)).scan
        = .ok (Command.Solid seven :: squareEdges.take 2)
    ∧ (squareTile m pad).decode = .error .UnterminatedBuffer
    ∧ decodeFrom 108 (squareTile m pad).commands 108 0
        = .ok (Command.Solid seven :: squareEdges ++ [Command.End], 108) := by
  have hcap : tileBufSize = 64 := rfl
  have h4 : sizeof_vgerOp = 4 := rfl
  have hall : totalSize (squareCalls pad) = 104 := rfl
  have hpre : totalSize ((squareCalls pad).take 3) = 56 := rfl
  have hlen : (squareCalls pad).length = 5 := rfl
  have hs : StoredSeq (squareTile m pad).commands 0 (squareCalls pad ++ [(Command.End, pad)]) := by
    unfold squareTile
    rw [run_end _ _ pad]
    exact run_storedSeq (Tile.empty m) _ (by
      rw [totalSize_append, hall]
      exact Nat.le_of_ble_eq_true rfl)
  refine ⟨rfl, ?_, ?_, ?_, ?_⟩
  · intro i hi
    exact run_frame (Tile.empty m) ((squareCalls pad).take 3)
      (by rw [hpre]; exact Nat.le_of_ble_eq_true rfl) i
      (Or.inr (by
        rw [hpre]
        show 0 + 56 ≤ i
        omega))
  · exact scan_run m ((squareCalls pad).take 3) (by omega)
  · have hsplit : squareCalls pad ++ [(Command.End, pad)]
        = (squareCalls pad).take 3
          ++ ((Command.LineFill ⟨f10, f10⟩ ⟨f0, f10⟩, pad)
              :: ((squareCalls pad).drop 4 ++ [(Command.End, pad)])) := rfl
    rw [hsplit] at hs
    obtain ⟨h1, h2, _⟩ := (storedSeq_append _ _ _ _).1 hs
    exact decodeFrom_overflow tileBufSize _ ((squareCalls pad).take 3) _ tileBufSize 0 h1 h2
      (fun k hk => squareCalls_nonEnd pad k (List.mem_of_mem_take hk)) (by omega)
      (by
        rw [hpre]
        exact Nat.le_of_ble_eq_true rfl)
  · obtain ⟨h1, h2, _⟩ := (storedSeq_append _ _ _ _).1 hs
    exact decodeFrom_of_storedSeq 108 _ (squareCalls pad) 108 0 h1 h2 (squareCalls_nonEnd pad)
      (by omega) (by omega)

/-- Counterexample to C8: on the empty tile, `end()` stores the End word 0 at
offset 0 and leaves the cursor at 4. A following `solid(7)` is not held back:
it stores the Solid word 3 and the colour 7 at offsets 4 and 8, after the End,
and moves the cursor to 12. A second `end()` takes effect as well: it stores a
second End word at offset 4 and moves the cursor to 8. -/
theorem end_not_final :
    (Tile.empty zeroMem).end_.length = 4
    ∧ readWord (Tile.empty zeroMem).end_.commands 0 = vgerOp.vgerOpEnd.toWord
    ∧ ((Tile.empty zeroMem).end_.solid seven).length = 12
    ∧ readWord ((Tile.empty zeroMem).end_.solid seven).commands 0 = vgerOp.vgerOpEnd.toWord
    ∧ readWord ((Tile.empty zeroMem).end_.solid seven).commands 4 = vgerOp.vgerOpSolid.toWord
    ∧ readWord ((Tile.empty zeroMem).end_.solid seven).commands 8 = seven.toWord
    ∧ (Tile.empty zeroMem).end_.end_.length = 8
    ∧ readWord (Tile.empty zeroMem).end_.end_.commands 0 = vgerOp.vgerOpEnd.toWord
    ∧ readWord (Tile.empty zeroMem).end_.end_.commands 4 = vgerOp.vgerOpEnd.toWord
    ∧ (Tile.empty zeroMem).end_.end_.length ≠ (Tile.empty zeroMem).end_.length := by
  decide

/-- C8, amended: the operations do not check for an earlier End; that no call
follows `end()` is a precondition on the caller. For every sequence of non-End
calls from the empty tile that fits the capacity together with its End: before
`end()` the commands stored in `[0, length)` are those of the calls, in order,
none of them an End; after one `end()` they are those commands followed by End,
with the cursor just after that End: exactly one End, and it is the last
command. -/
theorem single_terminator (m : Nat → Byte) (ks : List Call)
    (hne : ∀ k ∈ ks, k.1 ≠ Command.End)
    (hfit : totalSize ks + sizeof_vgerOp ≤ tileBufSize) :
    StoredSeq ((Tile.empty m).run ks).commands 0 ks
    ∧ ((Tile.empty m).run ks).length = totalSize ks
    ∧ (ks.map Prod.fst).count Command.End = 0
    ∧ StoredSeq ((Tile.empty m).run ks).end_.commands 0 (ks ++ [(Command.End, zeroPad)])
    ∧ ((Tile.empty m).run ks).end_.length = totalSize (ks ++ [(Command.End, zeroPad)])
    ∧ ((ks ++ [(Command.End, zeroPad)]).map Prod.fst).count Command.End = 1
    ∧ ((ks ++ [(Command.End, zeroPad)]).map Prod.fst).getLast? = some Command.End := by
  have h4 : sizeof_vgerOp = 4 := rfl
  have hcap : tileBufSize = 64 := rfl
  have htot : totalSize (ks ++ [(Command.End, zeroPad)]) = totalSize ks + sizeof_vgerOp := by
    rw [totalSize_append]
    rfl
  have hlt : (Tile.empty m).length + totalSize ks < 4294967296 := by
    show 0 + totalSize ks < 4294967296
    omega
  have hlt2 : (Tile.empty m).length + totalSize (ks ++ [(Command.End, zeroPad)])
      < 4294967296 := by
    rw [htot]
    show 0 + (totalSize ks + sizeof_vgerOp) < 4294967296
    omega
  have hcount : (ks.map Prod.fst).count Command.End = 0 := by
    apply List.count_eq_zero_of_not_mem
    intro hmem
    obtain ⟨k, hk, hke⟩ := List.mem_map.1 hmem
    exact hne k hk hke
  refine ⟨run_storedSeq _ ks hlt, ?_, hcount, ?_, ?_, ?_, ?_⟩
  · rw [run_length _ ks hlt]
    exact Nat.zero_add _
  · rw [run_end _ ks zeroPad]
    exact run_storedSeq _ _ hlt2
  · rw [run_end _ ks zeroPad, run_length _ _ hlt2]
    exact Nat.zero_add _
  · rw [List.map_append, List.count_append, hcount]
    rfl
  · rw [List.map_append]
    exact List.getLast?_concat _

/-- Witness of C8, amended: `solid(7)`, two edges of the square, `end()`. -/
theorem single_terminator_witness :
    totalSize ((squareCalls zeroPad).take 3) + sizeof_vgerOp ≤ tileBufSize
    ∧ ((Tile.empty zeroMem).run ((squareCalls zeroPad).take 3)).end_.length
        = totalSize ((squareCalls zeroPad).take 3 ++ [(Command.End, zeroPad)]) :=
  ⟨by decide,
    (single_terminator zeroMem ((squareCalls zeroPad).take 3) (by decide) (by decide)).2.2.2.2.1⟩

/-- C9: the length is implied by the discriminator. With `vgerOp.size` the
function from the five discriminators to byte counts (4, 24, 32, 8, 32), for
every tile state and every arguments each write operation stores, at the old
cursor, a word that is the discriminator `d` of its command, and advances the
cursor by `d.size` (in the `uint` arithmetic of the cursor: exactly
`length + d.size` whenever that is below 2^32). The advance is a function of `d`
alone; the `d.size` bytes written are the discriminator word, the field words
in order and the padding of the struct: no size field. -/
theorem length_from_discriminator (t : Tile) (c : Command) (pad : Nat → Byte) :
    (∃ d : vgerOp, readWord (t.exec c pad).commands t.length = d.toWord
      ∧ vgerOp.ofWord (readWord (t.exec c pad).commands t.length) = some d
      ∧ d = c.op
      ∧ (t.exec c pad).length = (t.length + d.size) % 4294967296
      ∧ (t.length + d.size < 4294967296 → (t.exec c pad).length = t.length + d.size)
      ∧ t.exec c pad = t.append d.size (c.bytes pad)
      ∧ (c.bytes pad).length = d.size
      ∧ c.bytes pad
          = wordBytes d.toWord ++ (c.padding pad).1 ++ wordsBytes c.fields ++ (c.padding pad).2)
    ∧ [vgerOp.vgerOpEnd.size, vgerOp.vgerOpLine.size, vgerOp.vgerOpBez.size,
        vgerOp.vgerOpSolid.size, vgerOp.vgerOpSegment.size] = [4, 24, 32, 8, 32] := by
  refine ⟨⟨c.op, stored_op _ _ _ (exec_stored t c pad), ?_, rfl, exec_length t c pad, ?_,
    exec_append_bytes t c pad, bytes_length c pad, bytes_layout c pad⟩, rfl⟩
  · rw [stored_op _ _ _ (exec_stored t c pad), vgerOp_ofWord_toWord]
  · intro h
    rw [exec_length]
    exact Nat.mod_eq_of_lt h

/-- Witness of C9: `lineFill` on the empty tile stores the word 1 at offset 0
and moves the cursor from 0 to 24, the size for the discriminator 1. -/
theorem length_from_discriminator_witness :
    readWord ((Tile.empty zeroMem).lineFill ⟨f0, f0⟩ ⟨f10, f0⟩ zeroPad).commands 0
      = vgerOp.vgerOpLine.toWord
    ∧ ((Tile.empty zeroMem).lineFill ⟨f0, f0⟩ ⟨f10, f0⟩ zeroPad).length
      = 0 + vgerOp.vgerOpLine.size := by
  obtain ⟨d, h1, _, h3, _, h5, _⟩ :=
    (length_from_discriminator (Tile.empty zeroMem) (Command.LineFill ⟨f0, f0⟩ ⟨f10, f0⟩)
      zeroPad).1
  subst h3
  exact ⟨h1, h5 (by decide)⟩

/-- C10: the discriminators are distinct and End is unique. For every tile state
and every arguments, the words that `segment`, `lineFill`, `bezFill`, `solid`
and `end` store at the old cursor are 4, 1, 2, 3 and 0: pairwise distinct, so
none of the four payload-carrying operations stores the 0 of End. And `end()`
stores only the four bytes of that word: it advances the cursor by 4 and
changes no other byte. -/
theorem discriminators_distinct (t : Tile) (a b c : float2) (width : float) (color : CInt)
    (pad : Nat → Byte) :
    [readWord (t.segment a b width pad).commands t.length,
      readWord (t.lineFill a b pad).commands t.length,
      readWord (t.bezFill a b c pad).commands t.length,
      readWord (t.solid color).commands t.length,
      readWord t.end_.commands t.length] = [4, 1, 2, 3, 0]
    ∧ ([4, 1, 2, 3, 0] : List Word).Nodup
    ∧ (∀ o1 o2 : vgerOp, o1.toWord = o2.toWord → o1 = o2)
    ∧ (List.range 4).map (fun k => t.end_.commands (t.length + k))
        = wordBytes vgerOp.vgerOpEnd.toWord
    ∧ t.end_.length = (t.length + 4) % 4294967296
    ∧ (∀ i, i < t.length ∨ t.length + 4 ≤ i → t.end_.commands i = t.commands i) := by
  refine ⟨?_, by decide, ?_, ?_, rfl, ?_⟩
  · rw [show readWord (t.segment a b width pad).commands t.length = 4 from
        stored_op _ _ _ (exec_stored t (.Segment a b width) pad),
      show readWord (t.lineFill a b pad).commands t.length = 1 from
        stored_op _ _ _ (exec_stored t (.LineFill a b) pad),
      show readWord (t.bezFill a b c pad).commands t.length = 2 from
        stored_op _ _ _ (exec_stored t (.BezFill a b c) pad),
      show readWord (t.solid color).commands t.length = 3 from
        stored_op _ _ _ (exec_stored t (.Solid color) pad),
      show readWord t.end_.commands t.length = 0 from
        stored_op _ _ _ (exec_stored t .End pad)]
  · intro o1 o2 h
    cases o1 <;> cases o2 <;> first | rfl | exact absurd h (by decide)
  · exact append_range t 4 _ rfl
  · intro i hi
    exact append_frame t sizeof_vgerOp _ i hi

/-- C11: each convenience constructor equals `append` of the corresponding
command. For every tile state and arguments, `segment`, `lineFill`, `bezFill`,
`solid` and `end` are the source's `append` of the struct with the matching
discriminator, and they are the spec's append of the command (discriminator,
then the fields in declared order). After the call the discriminator is the
word at the old cursor and every argument is read back at the offset of its
field: none swapped, none dropped. -/
theorem constructors_refine_append (t : Tile) (a b c : float2) (width : float) (color : CInt)
    (pad : Nat → Byte) :
    (t.segment a b width pad
        = t.append sizeof_vgerCmdSegment (vgerCmdSegment.bytes ⟨.vgerOpSegment, a, b, width⟩ pad)
      ∧ t.lineFill a b pad
        = t.append sizeof_vgerCmdLineFill (vgerCmdLineFill.bytes ⟨.vgerOpLine, a, b⟩ pad)
      ∧ t.bezFill a b c pad
        = t.append sizeof_vgerCmdBezFill (vgerCmdBezFill.bytes ⟨.vgerOpBez, a, b, c⟩ pad)
      ∧ t.solid color = t.append sizeof_vgerCmdSolid (vgerCmdSolid.bytes ⟨.vgerOpSolid, color⟩)
      ∧ t.end_ = t.append sizeof_vgerOp vgerOp.vgerOpEnd.bytes)
    ∧ (t.segment a b width pad = t.specAppend (.Segment a b width) pad
      ∧ t.lineFill a b pad = t.specAppend (.LineFill a b) pad
      ∧ t.bezFill a b c pad = t.specAppend (.BezFill a b c) pad
      ∧ t.solid color = t.specAppend (.Solid color) pad
      ∧ t.end_ = t.specAppend .End pad)
    ∧ (readWord (t.segment a b width pad).commands t.length = vgerOp.vgerOpSegment.toWord
      ∧ readFloat2 (t.segment a b width pad).commands (t.length + 8) = a
      ∧ readFloat2 (t.segment a b width pad).commands (t.length + 16) = b
      ∧ readWord (t.segment a b width pad).commands (t.length + 24) = width)
    ∧ (readWord (t.lineFill a b pad).commands t.length = vgerOp.vgerOpLine.toWord
      ∧ readFloat2 (t.lineFill a b pad).commands (t.length + 8) = a
      ∧ readFloat2 (t.lineFill a b pad).commands (t.length + 16) = b)
    ∧ (readWord (t.bezFill a b c pad).commands t.length = vgerOp.vgerOpBez.toWord
      ∧ readFloat2 (t.bezFill a b c pad).commands (t.length + 8) = a
      ∧ readFloat2 (t.bezFill a b c pad).commands (t.length + 16) = b
      ∧ readFloat2 (t.bezFill a b c pad).commands (t.length + 24) = c)
    ∧ (readWord (t.solid color).commands t.length = vgerOp.vgerOpSolid.toWord
      ∧ CInt.ofWord (readWord (t.solid color).commands (t.length + 4)) = color)
    ∧ readWord t.end_.commands t.length = vgerOp.vgerOpEnd.toWord := by
  refine ⟨⟨rfl, rfl, rfl, rfl, rfl⟩, ⟨rfl, rfl, rfl, rfl, rfl⟩,
    exec_stored t (.Segment a b width) pad, exec_stored t (.LineFill a b) pad,
    exec_stored t (.BezFill a b c) pad, ?_, exec_stored t .End pad⟩
  have h := exec_stored t (.Solid color) pad
  refine ⟨h.1, ?_⟩
  rw [show readWord (t.solid color).commands (t.length + 4) = color.toWord from h.2]
  exact cint_ofWord_toWord color

/-- C12: append-only frame. For every tile state and every command that fits
within the capacity, the write operation sets the cursor to the old cursor
plus the command's size and changes no byte of `commands` outside
`[old length, old length + size)`: every byte below the old cursor and every
byte at or above the new cursor is unchanged. The same holds for `append` of
any object that fits. -/
theorem append_only_frame (t : Tile) (c : Command) (pad : Nat → Byte)
    (hfit : t.length + c.size ≤ tileBufSize) :
    (t.exec c pad).length = t.length + c.size
    ∧ (∀ i, i < t.length → (t.exec c pad).commands i = t.commands i)
    ∧ (∀ i, (t.exec c pad).length ≤ i → (t.exec c pad).commands i = t.commands i)
    ∧ (∀ (size : Nat) (rep : List Byte), t.length + size ≤ tileBufSize →
        ∀ i, i < t.length ∨ t.length + size ≤ i →
          (t.append size rep).commands i = t.commands i) := by
  have hcap : tileBufSize = 64 := rfl
  have hlen : (t.exec c pad).length = t.length + c.size := by
    rw [exec_length]
    exact Nat.mod_eq_of_lt (by omega)
  refine ⟨hlen, fun i hi => exec_frame t c pad i (Or.inl hi), ?_, ?_⟩
  · intro i hi
    exact exec_frame t c pad i (Or.inr (by omega))
  · intro size rep _ i hi
    exact append_frame t size rep i hi

/-- Witness of C12: the second `lineFill` of the square, at cursor 32, leaves
byte 0 as the first call wrote it. -/
theorem append_only_frame_witness :
    ((Tile.empty zeroMem).run ((squareCalls zeroPad).take 2)).length
        + (Command.LineFill ⟨f10, f0⟩ ⟨f10, f10⟩).size ≤ tileBufSize
    ∧ (((Tile.empty zeroMem).run ((squareCalls zeroPad).take 2)).exec
          (Command.LineFill ⟨f10, f0⟩ ⟨f10, f10⟩) zeroPad).commands 0
        = ((Tile.empty zeroMem).run ((squareCalls zeroPad).take 2)).commands 0 :=
  ⟨by decide,
    (append_only_frame ((Tile.empty zeroMem).run ((squareCalls zeroPad).take 2))
      (Command.LineFill ⟨f10, f0⟩ ⟨f10, f10⟩) zeroPad (by decide)).2.1 0 (by decide)⟩

/-- C13: the encoding is unambiguous. For every two lists of calls that each fit
within the capacity together with their End, encoded from empty tiles (the
matching operations in order, then `end()`): if the final lengths are equal and
the two buffers hold the same byte at every offset below the length that is a
discriminator or field byte of both encodings, then the two lists hold the same
commands: same variants, same order, same field bits. -/
theorem encoding_unambiguous (m1 m2 : Nat → Byte) (ks1 ks2 : List Call)
    (hfit1 : totalSize ks1 + sizeof_vgerOp ≤ tileBufSize)
    (hfit2 : totalSize ks2 + sizeof_vgerOp ≤ tileBufSize)
    (hlen : ((Tile.empty m1).run ks1).end_.length = ((Tile.empty m2).run ks2).end_.length)
    (hbytes : ∀ i, i < ((Tile.empty m1).run ks1).end_.length →
      isData (ks1 ++ [(Command.End, zeroPad)]) 0 i →
      isData (ks2 ++ [(Command.End, zeroPad)]) 0 i →
      ((Tile.empty m1).run ks1).end_.commands i = ((Tile.empty m2).run ks2).end_.commands i) :
    ks1.map Prod.fst = ks2.map Prod.fst := by
  have hcap : tileBufSize = 64 := rfl
  have h4 : sizeof_vgerOp = 4 := rfl
  have htot : ∀ ks : List Call,
      totalSize (ks ++ [(Command.End, zeroPad)]) = totalSize ks + sizeof_vgerOp := by
    intro ks
    rw [totalSize_append]
    rfl
  have hlt : ∀ (m : Nat → Byte) (ks : List Call), totalSize ks + sizeof_vgerOp ≤ tileBufSize →
      (Tile.empty m).length + totalSize (ks ++ [(Command.End, zeroPad)]) < 4294967296 := by
    intro m ks hk
    rw [htot]
    show 0 + (totalSize ks + sizeof_vgerOp) < 4294967296
    omega
  have hs1 := run_storedSeq (Tile.empty m1) _ (hlt m1 ks1 hfit1)
  have hs2 := run_storedSeq (Tile.empty m2) _ (hlt m2 ks2 hfit2)
  have hl1 := run_length (Tile.empty m1) _ (hlt m1 ks1 hfit1)
  have hl2 := run_length (Tile.empty m2) _ (hlt m2 ks2 hfit2)
  rw [← run_end] at hs1 hs2 hl1 hl2
  have hsize : totalSize (ks1 ++ [(Command.End, zeroPad)])
      = totalSize (ks2 ++ [(Command.End, zeroPad)]) := by
    have e1 : (Tile.empty m1).length = 0 := rfl
    have e2 : (Tile.empty m2).length = 0 := rfl
    omega
  have hall := storedSeq_unique _ _ _ _ 0 hs1 hs2 hsize (by
    intro i d1 d2
    have hr := isData_range _ _ _ d1
    have e1 : (Tile.empty m1).length = 0 := rfl
    exact hbytes i (by omega) d1 d2)
  rw [List.map_append, List.map_append] at hall
  exact List.append_cancel_right hall

/-- Witness of C13: `solid(7)` and two edges of the square, encoded once over
zeroed memory with zero padding and once over memory of 255s with padding of
255s: the buffers differ in the padding bytes only, and the lists hold the same
commands. -/
theorem encoding_unambiguous_witness :
    (totalSize ((squareCalls zeroPad).take 3) + sizeof_vgerOp ≤ tileBufSize
      ∧ ((Tile.empty zeroMem).run ((squareCalls zeroPad).take 3)).end_.commands 12
        ≠ ((Tile.empty onesMem).run ((squareCalls onesPad).take 3)).end_.commands 12)
    ∧ ((squareCalls zeroPad).take 3).map Prod.fst
        = ((squareCalls onesPad).take 3).map Prod.fst :=
  ⟨by decide,
    encoding_unambiguous zeroMem onesMem ((squareCalls zeroPad).take 3)
      ((squareCalls onesPad).take 3) (by decide) (by decide) (by decide) (by decide)⟩

/-- C14: cursor alignment. With the struct sizes of the code (32 for
`vgerCmdSegment`, 24 for `vgerCmdLineFill`, 32 for `vgerCmdBezFill`, 8 for
`vgerCmdSolid`, 4 for the bare `vgerOp`), starting from length 0 every sequence
of `segment`, `lineFill`, `bezFill` and `solid` calls leaves the cursor a
multiple of 8, so every one of these commands starts at a multiple of 8; after
`end()` the cursor is congruent to 4 modulo 8. -/
theorem cursor_aligned (m : Nat → Byte) (ks : List Call)
    (hne : ∀ k ∈ ks, k.1 ≠ Command.End) :
    [sizeof_vgerCmdSegment, sizeof_vgerCmdLineFill, sizeof_vgerCmdBezFill,
        sizeof_vgerCmdSolid, sizeof_vgerOp] = [32, 24, 32, 8, 4]
    ∧ ((Tile.empty m).run ks).length % 8 = 0
    ∧ (∀ pre k post, ks = pre ++ k :: post → ((Tile.empty m).run pre).length % 8 = 0)
    ∧ ((Tile.empty m).run ks).end_.length % 8 = 4 := by
  have h4 : sizeof_vgerOp = 4 := rfl
  have h0 : (Tile.empty m).length = 0 := rfl
  have hrun : ∀ js : List Call, (∀ k ∈ js, k.1 ≠ Command.End) →
      ((Tile.empty m).run js).length % 8 = 0 := by
    intro js hjs
    have := (nonEnd_totalSize js hjs).2
    rw [run_length_mod _ js (show (0 : Nat) < 4294967296 from by omega)]
    omega
  refine ⟨rfl, hrun ks hne, ?_, ?_⟩
  · intro pre k post hks
    apply hrun pre
    intro j hj
    exact hne j (by rw [hks]; exact List.mem_append_left _ hj)
  · have := hrun ks hne
    rw [end_length]
    omega

/-- Witness of C14: `solid(7)` and the four edges of the square leave the cursor
at 104, a multiple of 8. -/
theorem cursor_aligned_witness :
    (∀ k ∈ squareCalls zeroPad, k.1 ≠ Command.End)
    ∧ ((Tile.empty zeroMem).run (squareCalls zeroPad)).length % 8 = 0
    ∧ ((Tile.empty zeroMem).run (squareCalls zeroPad)).end_.length % 8 = 4 :=
  ⟨by decide, (cursor_aligned zeroMem (squareCalls zeroPad) (by decide)).2.1,
    (cursor_aligned zeroMem (squareCalls zeroPad) (by decide)).2.2.2⟩

/-- Counterexample to C15: 134217728 `segment` calls from the empty tile take
134217728 * 32 = 2^32 bytes, so the `uint` cursor wraps to 0, and `end()` leaves
the final length 4, which is at most 64. Yet the commands before End take 2^32
bytes, not at most 56, and there are 134217728 of them, not at most 7. -/
theorem wrapped_cursor_hides_overflow :
    (∀ k ∈ List.replicate 134217728 ((Command.Segment ⟨f0, f0⟩ ⟨f10, f0⟩ f1, zeroPad) : Call),
        k.1 ≠ Command.End)
    ∧ ((Tile.empty zeroMem).run
        (List.replicate 134217728 (Command.Segment ⟨f0, f0⟩ ⟨f10, f0⟩ f1, zeroPad))).end_.length = 4
    ∧ ((Tile.empty zeroMem).run
        (List.replicate 134217728 (Command.Segment ⟨f0, f0⟩ ⟨f10, f0⟩ f1, zeroPad))).end_.length
        ≤ tileBufSize
    ∧ totalSize (List.replicate 134217728
        ((Command.Segment ⟨f0, f0⟩ ⟨f10, f0⟩ f1, zeroPad) : Call)) = 4294967296
    ∧ ¬ totalSize (List.replicate 134217728
        ((Command.Segment ⟨f0, f0⟩ ⟨f10, f0⟩ f1, zeroPad) : Call)) ≤ 56
    ∧ (List.replicate 134217728
        ((Command.Segment ⟨f0, f0⟩ ⟨f10, f0⟩ f1, zeroPad) : Call)).length = 134217728
    ∧ ¬ (List.replicate 134217728
        ((Command.Segment ⟨f0, f0⟩ ⟨f10, f0⟩ f1, zeroPad) : Call)).length ≤ 7 :=
  wrapped_run 134217728 zeroMem ⟨f0, f0⟩ ⟨f10, f0⟩ f1 zeroPad (by decide)

/-- C15, amended: what a terminated tile can hold, as long as the cursor has not
wrapped. For every list of non-End calls from an empty tile followed by
`end()`: the final length is congruent to 4 modulo 8, so it is never exactly
64. If the final length is at most 64 and the cumulative encoded length of the
calls with their End is below 2^32, then the commands before End occupy at most
56 bytes, the list has at most 7 commands, at most 2 `LineFill` commands, and
at most 1 command that is a `Segment` or a `BezFill`. -/
theorem terminated_tile_contents (m : Nat → Byte) (ks : List Call)
    (hne : ∀ k ∈ ks, k.1 ≠ Command.End) :
    ((Tile.empty m).run ks).end_.length % 8 = 4
    ∧ ((Tile.empty m).run ks).end_.length ≠ tileBufSize
    ∧ (((Tile.empty m).run ks).end_.length ≤ tileBufSize →
        totalSize ks + sizeof_vgerOp < 4294967296 →
          ((Tile.empty m).run ks).end_.length = totalSize ks + sizeof_vgerOp
          ∧ totalSize ks ≤ 56
          ∧ ks.length ≤ 7
          ∧ countOps isLine ks ≤ 2
          ∧ countOps isSegmentOrBez ks ≤ 1) := by
  have h4 : sizeof_vgerOp = 4 := rfl
  have hcap : tileBufSize = 64 := rfl
  have h0 : (Tile.empty m).length = 0 := rfl
  have hsz := nonEnd_totalSize ks hne
  have hmod : ((Tile.empty m).run ks).end_.length % 8 = 4 := by
    rw [end_length, run_length_mod _ ks (show (0 : Nat) < 4294967296 from by omega)]
    omega
  refine ⟨hmod, by omega, ?_⟩
  intro hle hnowrap
  have hlen : ((Tile.empty m).run ks).end_.length = totalSize ks + sizeof_vgerOp := by
    rw [end_length, run_length _ ks (by omega)]
    omega
  have hline := countOps_line_le ks
  have hseg := countOps_segmentOrBez_le ks
  have h56 : totalSize ks ≤ 56 := by omega
  have h7 : ks.length ≤ 7 := by omega
  have h2 : countOps isLine ks ≤ 2 := by omega
  have h1 : countOps isSegmentOrBez ks ≤ 1 := by omega
  exact ⟨hlen, h56, h7, h2, h1⟩

/-- Witness of C15, amended: `solid(7)` and two edges of the square, then
`end()`: final length 60, 56 bytes before End, 3 commands, 2 `LineFill`. -/
theorem terminated_tile_contents_witness :
    (∀ k ∈ (squareCalls zeroPad).take 3, k.1 ≠ Command.End)
    ∧ ((Tile.empty zeroMem).run ((squareCalls zeroPad).take 3)).end_.length = 60
    ∧ totalSize ((squareCalls zeroPad).take 3) ≤ 56
    ∧ countOps isLine ((squareCalls zeroPad).take 3) ≤ 2 :=
  ⟨by decide, by decide,
    ((terminated_tile_contents zeroMem ((squareCalls zeroPad).take 3) (by decide)).2.2
      (by decide) (by decide)).2.1,
    ((terminated_tile_contents zeroMem ((squareCalls zeroPad).take 3) (by decide)).2.2
      (by decide) (by decide)).2.2.2.1⟩

/-- C16: the length is the sum of the sizes. For every tile with initial cursor
`L` (a `uint`) and every list of calls, the final length is `L` plus the sum of
the encoded sizes, modulo 2^32; the `k`-th call finds the cursor at `L` plus the
sum of the sizes of the calls before it (modulo 2^32) and stores its command at
that offset; while the sum stays below 2^32 the offsets are the plain sums and
all the commands lie one after the other from `L` on; and the final length is
the same for every order of the calls. -/
theorem length_is_sum_of_sizes (t : Tile) (ks : List Call) (ht : t.length < 4294967296) :
    (t.run ks).length = (t.length + totalSize ks) % 4294967296
    ∧ (∀ pre k post, ks = pre ++ k :: post →
        (t.run pre).length = (t.length + totalSize pre) % 4294967296
        ∧ t.run (pre ++ [k]) = (t.run pre).exec k.1 k.2
        ∧ Stored (t.run (pre ++ [k])).commands ((t.length + totalSize pre) % 4294967296) k.1)
    ∧ (t.length + totalSize ks < 4294967296 →
        (t.run ks).length = t.length + totalSize ks
        ∧ StoredSeq (t.run ks).commands t.length ks
        ∧ ∀ pre k post, ks = pre ++ k :: post →
            Stored (t.run ks).commands (t.length + totalSize pre) k.1)
    ∧ (∀ js : List Call, ks.Perm js → (t.run js).length = (t.run ks).length) := by
  refine ⟨run_length_mod t ks ht, ?_, ?_, ?_⟩
  · intro pre k post _
    have hpre := run_length_mod t pre ht
    have hrun : t.run (pre ++ [k]) = (t.run pre).exec k.1 k.2 := by
      rw [run_append]
      rfl
    refine ⟨hpre, hrun, ?_⟩
    rw [hrun, ← hpre]
    exact exec_stored (t.run pre) k.1 k.2
  · intro hlt
    have hs := run_storedSeq t ks hlt
    refine ⟨run_length t ks hlt, hs, ?_⟩
    intro pre k post hks
    rw [hks] at hs ⊢
    exact ((storedSeq_append _ _ pre (k :: post)).1 hs).2.1
  · intro js hperm
    rw [run_length_mod t js ht, run_length_mod t ks ht, totalSize_perm ks js hperm]

/-- Witness of C16: the first three calls of the square scenario from the empty
tile, and the same calls in reverse order: the final length is 56 both times. -/
theorem length_is_sum_of_sizes_witness :
    (Tile.empty zeroMem).length < 4294967296
    ∧ ((Tile.empty zeroMem).run ((squareCalls zeroPad).take 3)).length
        = ((Tile.empty zeroMem).length + totalSize ((squareCalls zeroPad).take 3)) % 4294967296
    ∧ ((Tile.empty zeroMem).run ((squareCalls zeroPad).take 3).reverse).length
        = ((Tile.empty zeroMem).run ((squareCalls zeroPad).take 3)).length :=
  ⟨by decide,
    (length_is_sum_of_sizes (Tile.empty zeroMem) ((squareCalls zeroPad).take 3) (by decide)).1,
    (length_is_sum_of_sizes (Tile.empty zeroMem) ((squareCalls zeroPad).take 3)
      (by decide)).2.2.2 _ (List.reverse_perm _).symm⟩

end Vger
